import Mathlib

/-!
Shallow embedding of the Census Chat core (`core.py`) and its Flask
orchestration loop (`flask_app.py`), together with proofs about the
SQL-safety classifier, the topic guardrail, the SQL block extractor, the
query executor adapter and the `/chat` turn handler.

Strings are modelled as `List Char` over their ASCII fragment (the character
classes involved — whitespace, word characters, the fixed keyword lists —
are all ASCII).  Python `while` loops whose body is not structurally
decreasing are modelled with an explicit iteration-count ("fuel") parameter,
and the fuel-free wrappers instantiate the fuel at `length + 1`.  Nothing
depends on that particular bound: for the always-terminating loops the
stability lemmas `blockFuel_stable` and `scanFuel_stable` show any larger
fuel computes the same value, and for the line-comment loop — which can
genuinely fail to terminate — `stripLineComments_some_iff` and
`stripLineComments_none_iff` show the wrapper returns `some t` exactly when
some number of iterations exits the loop with `t`, and `none` exactly when
the loop is still running after every number of iterations.
-/

set_option maxRecDepth 10000

namespace CensusChat

/-- ASCII whitespace, matching the characters Python's `str.strip` / `str.split` /
regex `\s` treat as whitespace for ASCII text. -/
def isSpace (c : Char) : Bool :=
  c = ' ' || c = '\t' || c = '\n' || c = '\r' || c = '\x0b' || c = '\x0c'

/-- Drop trailing whitespace (the right half of Python `str.strip`). -/
def stripEnd (s : List Char) : List Char :=
  (s.reverse.dropWhile isSpace).reverse

/-- Python `str.strip()` on ASCII text. -/
def strip (s : List Char) : List Char :=
  stripEnd (s.dropWhile isSpace)

/-- Python `str.rstrip(";")`. -/
def rstripSemi (s : List Char) : List Char :=
  (s.reverse.dropWhile (fun c => c = ';')).reverse

/-- Test whether `pat` is a literal prefix of `s` (Python `str.startswith`). -/
def leadsWith : List Char → List Char → Bool
  | [], _ => true
  | _ :: _, [] => false
  | p :: ps, c :: cs => decide (p = c) && leadsWith ps cs

/-- Does the string contain a newline? -/
def hasNl (s : List Char) : Bool := s.any (fun c => c = '\n')

/-- Everything after the first newline. -/
def afterFirstNl : List Char → List Char
  | [] => []
  | c :: cs => if c = '\n' then cs else afterFirstNl cs

/-- Python `s.split("\n", 1)[-1]`: the part after the first newline, or the whole
string when no newline occurs (`split` then returns the one-element list `[s]`). -/
def splitNlTail (s : List Char) : List Char :=
  if hasNl s then afterFirstNl s else s

def dashdash : List Char := ("--").data

def slashStar : List Char := ("/*").data

def starSlash : List Char := ("*/").data

/-- First index at which `pat` occurs as a contiguous substring (Python `str.find`,
with `none` standing for Python's `-1`). -/
def findSub (pat : List Char) : List Char → Option Nat
  | [] => if leadsWith pat [] then some 0 else none
  | c :: cs =>
      if leadsWith pat (c :: cs) then some 0
      else (findSub pat cs).map (fun n => n + 1)

/-- The `while s.startswith("--")` loop of `_strip_sql_comments`
(`core.py`, lines 41-42), bounded by `n` iterations.  Each iteration runs
`s = s.split("\n", 1)[-1].strip()`.  `none` means the loop has not exited
within `n` iterations. -/
def stripLineFuel : Nat → List Char → Option (List Char)
  | 0, _ => none
  | n + 1, s =>
      if leadsWith dashdash s then stripLineFuel n (strip (splitNlTail s))
      else some s

/-- The `while s.startswith("--")` loop.  `length + 1` iterations always
suffice to decide the loop: every iteration that makes progress shortens the
string, and an iteration that makes no progress repeats forever.
`stripLineComments_some_iff` and `stripLineComments_none_iff` below prove
that this wrapper returns `some t` exactly when some number of loop
iterations exits with `t`, and `none` exactly when the loop is still running
after every number of iterations. -/
def stripLineComments (s : List Char) : Option (List Char) :=
  stripLineFuel (s.length + 1) s

/-- The `while s.startswith("/*")` loop of `_strip_sql_comments`
(`core.py`, lines 43-47), bounded by `n` iterations: find the first `*/`;
if absent, break (leaving the unclosed marker in place); otherwise continue
with `s[end + 2:].strip()`.  This loop always terminates (each pass removes
at least the leading `/*`), so the fuel-exhausted value is never reached
from the wrapper below (`blockFuel_stable`). -/
def blockFuel : Nat → List Char → List Char
  | 0, s => s
  | n + 1, s =>
      if leadsWith slashStar s then
        match findSub starSlash s with
        | none => s
        | some e => blockFuel n (strip (s.drop (e + 2)))
      else s

/-- The `while s.startswith("/*")` loop of `_strip_sql_comments`. -/
def stripBlockComments (s : List Char) : List Char :=
  blockFuel (s.length + 1) s

/-- The function `_strip_sql_comments` (`core.py`, lines 38-48): strip, then the
line-comment loop, then the block-comment loop.  `none` records that the
line-comment loop diverges. -/
def strip_sql_comments (sql : List Char) : Option (List Char) :=
  (stripLineComments (strip sql)).map stripBlockComments

/-- ASCII upper-casing of one character (Python `str.upper` on ASCII input). -/
def upChar (c : Char) : Char :=
  if 'a' ≤ c ∧ c ≤ 'z' then Char.ofNat (c.toNat - 32) else c

/-- Python `str.upper` on ASCII text. -/
def pyUpper (s : List Char) : List Char := s.map upChar

/-- The expression `stripped.split()[0].upper() if stripped.split() else ""`
(`core.py`, line 54).  The first token of Python `str.split()` is the maximal
run of non-whitespace characters that follows the leading whitespace; `split()`
is empty exactly when the string is all whitespace, in which case the code
uses `""`. -/
def firstWordU (s : List Char) : List Char :=
  match s.dropWhile isSpace with
  | [] => []
  | c :: cs => pyUpper (c :: cs.takeWhile (fun x => !isSpace x))

/-- A regex word character (`\w`), restricted to ASCII as in the keyword
patterns of `core.py` (the keywords themselves are all ASCII letters). -/
def isWordChar (c : Char) : Bool :=
  (decide ('A' ≤ c) && decide (c ≤ 'Z')) ||
  (decide ('a' ≤ c) && decide (c ≤ 'z')) ||
  (decide ('0' ≤ c) && decide (c ≤ '9')) ||
  decide (c = '_')

/-- Case-insensitive character equality (`re.IGNORECASE` on ASCII). -/
def ciEqChar (a b : Char) : Bool := decide (upChar a = upChar b)

/-- Match `kw` case-insensitively at the front of `s`, returning the remainder. -/
def ciMatchHere : List Char → List Char → Option (List Char)
  | [], s => some s
  | _ :: _, [] => none
  | k :: ks, c :: cs => if ciEqChar k c then ciMatchHere ks cs else none

/-- Whether `kw` matches case-insensitively at the front of `s` with a word boundary
(`\b`) immediately after the match.  All keywords used in `core.py` begin
with a letter, so the boundary before the match is the caller's concern
(tracked by `searchFrom`). -/
def wordAt (kw s : List Char) : Bool :=
  match ciMatchHere kw s with
  | none => false
  | some [] => true
  | some (c :: _) => !isWordChar c

/-- Scan `s` for a whole-word, case-insensitive occurrence of any keyword in
`kws`; `prevW` records whether the character just before the current position
is a word character (initially `false`: the start of the string is a boundary).
This is `re.search` of `\b(kw1|kw2|...)\b` with `re.IGNORECASE` for keyword
lists whose entries start and end with letters. -/
def searchFrom (kws : List (List Char)) : Bool → List Char → Bool
  | _, [] => false
  | prevW, c :: cs =>
      ((!prevW) && kws.any (fun kw => wordAt kw (c :: cs))) ||
        searchFrom kws (isWordChar c) cs

def wordSearch (kws : List (List Char)) (s : List Char) : Bool :=
  searchFrom kws false s

/-- The alternatives of `DANGEROUS_KEYWORDS` (`core.py`, lines 32-35). -/
def dangerousKws : List (List Char) :=
  [("DROP").data, ("DELETE").data, ("INSERT").data, ("UPDATE").data,
   ("ALTER").data, ("CREATE").data, ("TRUNCATE").data, ("REPLACE").data,
   ("MERGE").data, ("GRANT").data, ("REVOKE").data, ("EXEC").data,
   ("EXECUTE").data]

def hasDangerous (s : List Char) : Bool := wordSearch dangerousKws s

def selectKw : List Char := ("SELECT").data

def withKw : List Char := ("WITH").data

/-- The body of `is_safe_sql` after comment stripping (`core.py`, lines 53-59):
`stripped = <comment-stripped>.rstrip(";").strip()`, then the first-word check
against `SELECT` / `WITH`, then the dangerous-keyword search. -/
def safeAfterComments (t : List Char) : Bool :=
  let stripped := strip (rstripSemi t)
  let firstWord := firstWordU stripped
  if firstWord = selectKw ∨ firstWord = withKw then
    if hasDangerous stripped then false else true
  else false

/-- The classifier `is_safe_sql` (`core.py`, lines 51-59).  `none` means the call never
returns (the line-comment loop of `_strip_sql_comments` diverges). -/
def is_safe_sql (sql : List Char) : Option Bool :=
  (strip_sql_comments sql).map safeAfterComments

/-- The comment-stripped, terminator-stripped text that `is_safe_sql` inspects. -/
def strippedText (sql : List Char) : Option (List Char) :=
  (strip_sql_comments sql).map (fun t => strip (rstripSemi t))

/-- The classifier `is_safe_sql` with the line-comment loop bounded by `n` iterations. -/
def is_safe_sql_fuel (n : Nat) (sql : List Char) : Option Bool :=
  ((stripLineFuel n (strip sql)).map stripBlockComments).map safeAfterComments

/-- The alternatives of `OFF_TOPIC_PATTERNS` (`core.py`, lines 63-66).
`drugs?` and `weapons?` each expand to the two literal alternatives
with and without the optional `s`. -/
def offTopicKws : List (List Char) :=
  [("porn").data, ("nude").data, ("sex").data, ("kill").data, ("bomb").data,
   ("hack").data, ("crack").data, ("drug").data, ("drugs").data,
   ("weapon").data, ("weapons").data, ("suicide").data]

/-- The guardrail `is_off_topic` (`core.py`, lines 69-70). -/
def is_off_topic (s : List Char) : Bool := wordSearch offTopicKws s

def fenceSql : List Char := ("```sql").data

def fence : List Char := ("```").data

/-- One left-to-right scan of `re.findall(r"```sql\s*(.*?)\s*```", text, re.DOTALL)`
(`core.py`, lines 217-221), bounded by `n` scan steps.

The regex engine looks for the leftmost occurrence of the literal prefix
`\x60\x60\x60sql` (six characters; note that a longer info string such as
`sqlite` still matches, with its remainder falling into the capture).  After
that prefix, the greedy `\s*` takes the maximal whitespace run, the lazy
`(.*?)` then stops at the earliest point from which the greedy second `\s*`
can reach a closing triple backtick — so the full match ends at the first
closing fence after the prefix, and the captured group is exactly the text
between prefix and that fence with surrounding whitespace removed, i.e.
`strip` of the region.  If the prefix matches but no closing fence follows,
the engine moves one character forward and retries; `findall` resumes after
the end of each match. -/
def scanFuel : Nat → List Char → List (List Char)
  | 0, _ => []
  | _ + 1, [] => []
  | n + 1, c :: rest =>
      if leadsWith fenceSql (c :: rest) then
        match findSub fence ((c :: rest).drop 6) with
        | none => scanFuel n rest
        | some q =>
            strip (((c :: rest).drop 6).take q) ::
              scanFuel n (((c :: rest).drop 6).drop (q + 3))
      else scanFuel n rest

/-- The extractor `extract_sql` (`core.py`, lines 217-221).  Each scan step consumes at
least one character, so `length + 1` steps always suffice (`scanFuel_stable`). -/
def extract_sql (t : List Char) : List (List Char) :=
  scanFuel (t.length + 1) t

/-- Specification-level reading of the extractor: repeatedly take the first
occurrence of the opening marker, then the first closing fence after it, and
return the whitespace-stripped region between them; a fence with no closing
marker contributes nothing.  `extract_sql_eq_spec` proves `extract_sql`
equal to this. -/
def extractSqlSpec (t : List Char) : List (List Char) :=
  match h1 : findSub fenceSql t with
  | none => []
  | some i =>
      match findSub fence (t.drop (i + 6)) with
      | none => []
      | some q =>
          strip ((t.drop (i + 6)).take q) ::
            extractSqlSpec ((t.drop (i + 6)).drop (q + 3))
termination_by t.length
decreasing_by
  have hne : t ≠ [] := by
    intro he
    rw [he] at h1
    simp [findSub, leadsWith, fenceSql] at h1
  have hlen : 0 < t.length := List.length_pos.mpr hne
  have h2 : ((t.drop (i + 6)).drop (q + 3)).length ≤ (t.drop (i + 6)).length := by
    rw [List.length_drop]
    omega
  have h3 : (t.drop (i + 6)).length < t.length := by
    rw [List.length_drop]
    omega
  omega

/-! ### Query executor adapter (`run_query`, `core.py` lines 235-244)

The live Snowflake connection is modelled as a capability that, for a given
SQL text, either raises (`Except.error` carrying `str(e)`) or yields the
cursor's column descriptors together with all result rows (each row a list
of cell values, modelled opaquely as strings).  `cur.fetchmany(max_rows)`
returns at most `max_rows` of those rows, and `dict(zip(columns, row))`
pairs the column names with the row's cells in order (Python's `zip`
truncates at the shorter list, as does `List.zip`). -/

abbrev Conn : Type := List Char → Except (List Char) (List (List Char) × List (List (List Char)))

abbrev Row : Type := List (List Char × List Char)

inductive QueryResult
  | error (msg : List Char)
  | rows (l : List Row)
deriving DecidableEq

/-- The adapter `run_query(sql, conn, max_rows)` (`core.py`, lines 235-244).  The whole
body runs inside `try/except`, so a raising capability produces the
`{"error": str(e)}` value instead of propagating. -/
def run_query (sql : List Char) (conn : Conn) (max_rows : Nat) : QueryResult :=
  match conn sql with
  | .error e => .error e
  | .ok (cols, rws) => .rows ((rws.take max_rows).map (fun row => cols.zip row))

/-- The adapter `run_query` with its default `max_rows=500`, as called by `flask_app.py`
line 112. -/
def run_queryDefault (sql : List Char) (conn : Conn) : QueryResult :=
  run_query sql conn 500

/-! ### The `/chat` turn handler (`flask_app.py`, lines 59-137) -/

inductive Role
  | user
  | assistant
deriving DecidableEq

structure Message where
  role : Role
  content : List Char
deriving DecidableEq

/-- One observable step of a turn (`steps` entries of the `/chat` response). -/
inductive Step
  | answer (content : List Char)
  | llmResponse (content : List Char)
  | queryResult (rows : List Row)
  | queryError (content : List Char)
  | error (content : List Char)
deriving DecidableEq

/-- The language-model capability (`chat_with_llm`): given the model-facing
message list, either raise (`Except.error` carrying `str(exc)`) or return the
response text. -/
abbrev Oracle : Type := List Message → Except (List Char) (List Char)

/-- The rendering `str(result)` on a list of row dicts, used to build the feedback text
(`flask_app.py` line 118).  The rendering function is a parameter: no claim
depends on its exact output, only on where the text it produces is sent. -/
abbrev Render : Type := List Row → List Char

def blockedText : List Char :=
  ("That query was blocked for safety reasons. I can only run SELECT queries.").data

def refusalText : List Char :=
  ("I can only answer questions about US Census and population data. Please ask something related to demographics, housing, commuting, migration, or language statistics.").data

def exhaustedText : List Char :=
  ("I had trouble completing that query. Could you try rephrasing your question?").data

def emptyText : List Char := ("Empty message").data

def queryErrText (e : List Char) : List Char := ("Query error: ").data ++ e

def natText (n : Nat) : List Char := (Nat.repr n).data

def joinSep (sep : List Char) : List (List Char) → List Char
  | [] => []
  | [x] => x
  | x :: y :: rest => x ++ sep ++ joinSep sep (y :: rest)

/-- The labelled join `"\n\n".join(f"Query result {i + 1}:\n{r}" for i, r in enumerate(all_results))`
(`flask_app.py`, lines 121-123). -/
def resultsText (texts : List (List Char)) : List Char :=
  joinSep (("\n\n").data)
    ((texts.enum).map (fun p =>
      ("Query result ").data ++ natText (p.1 + 1) ++ (":").data ++ '\n' :: p.2))

/-- The synthetic feedback message (`result_message`, `flask_app.py` lines 124-128). -/
def resultMessage (texts : List (List Char)) : List Char :=
  ("Here are the query results:\n\n").data ++ resultsText texts ++
    ("\n\nPlease summarize these results in a clear, conversational way to answer the user\x27s question. Do not output any more SQL.").data

/-- The `for sql in sql_queries` loop of one round (`flask_app.py`,
lines 104-118): per candidate, emit a Step and record a result-text.
`none` propagates a diverging `is_safe_sql` call (the whole request then
hangs inside the classifier). -/
def processCandidates (conn : Conn) (render : Render) : List (List Char) → Option (List Step × List (List Char))
  | [] => some ([], [])
  | sql :: rest =>
      match is_safe_sql sql with
      | none => none
      | some false =>
          (processCandidates conn render rest).map
            (fun p => (Step.queryError blockedText :: p.1, blockedText :: p.2))
      | some true =>
          match run_queryDefault sql conn with
          | .error e =>
              (processCandidates conn render rest).map
                (fun p => (Step.queryError e :: p.1, queryErrText e :: p.2))
          | .rows rws =>
              (processCandidates conn render rest).map
                (fun p => (Step.queryResult rws :: p.1, render rws :: p.2))

/-- Everything a finished turn exposes: the `steps` of the loop, the visible
message list afterwards, the final model-facing list, the number of model
invocations, the model's responses in order, and per continuing round the
`(response, feedback)` pair appended to the model-facing list. -/
structure RoundsOut where
  steps : List Step
  msgs : List Message
  llmMsgs : List Message
  calls : Nat
  resps : List (List Char)
  fbs : List (List Char × List Char)
deriving DecidableEq

/-- The `for _ in range(max_rounds) ... else` loop (`flask_app.py`,
lines 85-135), by recursion on the remaining rounds; the `n = 0` case is the
`else` clause emitting the exhaustion error. -/
def runRounds (llm : Oracle) (conn : Conn) (render : Render) :
    Nat → List Message → List Message → Option RoundsOut
  | 0, msgs, lms => some ⟨[Step.error exhaustedText], msgs, lms, 0, [], []⟩
  | n + 1, msgs, lms =>
      match llm lms with
      | .error e => some ⟨[Step.error e], msgs, lms, 1, [], []⟩
      | .ok resp =>
          if extract_sql resp = [] then
            some ⟨[Step.answer resp], msgs ++ [⟨Role.assistant, resp⟩], lms, 1, [resp], []⟩
          else
            match processCandidates conn render (extract_sql resp) with
            | none => none
            | some (csteps, texts) =>
                (runRounds llm conn render n (msgs ++ [⟨Role.assistant, resp⟩])
                    (lms ++ [⟨Role.assistant, resp⟩,
                      ⟨Role.user, resultMessage texts⟩])).map
                  (fun out =>
                    ⟨Step.llmResponse resp :: (csteps ++ out.steps), out.msgs,
                      out.llmMsgs, out.calls + 1, resp :: out.resps,
                      (resp, resultMessage texts) :: out.fbs⟩)

/-- The HTTP-level outcome of `/chat`: the 400 "Empty message" rejection, or
a 200 response carrying the turn's Step sequence. -/
inductive ChatResponse
  | badRequest (msg : List Char)
  | steps (l : List Step)
deriving DecidableEq

structure TurnResult where
  response : ChatResponse
  store : List Message
  calls : Nat
  llmMsgs : List Message
  resps : List (List Char)
  fbs : List (List Char × List Char)
deriving DecidableEq

def max_rounds : Nat := 5

/-- The `/chat` route (`flask_app.py`, lines 59-137) for one request:
`user_text = (data.get("message") or "").strip()`; empty text is rejected
with HTTP 400 before the conversation store is touched; an off-topic text
returns the fixed refusal as a single `answer` step without invoking the
model; otherwise the user message is appended to the session's visible list,
the model-facing list starts as a copy of it, and the round loop runs with
`max_rounds = 5`.  `none` means the request never returns (a diverging
`is_safe_sql` call). -/
def chat (msg : List Char) (store : List Message) (llm : Oracle) (conn : Conn)
    (render : Render) : Option TurnResult :=
  if strip msg = [] then
    some ⟨ChatResponse.badRequest emptyText, store, 0, [], [], []⟩
  else if is_off_topic (strip msg) then
    some ⟨ChatResponse.steps [Step.answer refusalText], store, 0, [], [], []⟩
  else
    (runRounds llm conn render max_rounds (store ++ [⟨Role.user, strip msg⟩])
        (store ++ [⟨Role.user, strip msg⟩])).map
      (fun out => ⟨ChatResponse.steps out.steps, out.msgs, out.calls,
        out.llmMsgs, out.resps, out.fbs⟩)

/-- A turn's terminal step kinds (`answer` or `error`). -/
def isTerminalStep : Step → Bool
  | .answer _ => true
  | .error _ => true
  | _ => false

/-! ### Specification-level predicates (positional formulations)

These state, independently of the scanning code, what the spec's sentences
say: a case-insensitive whole-word occurrence at a position, and the shape of
the first whitespace-delimited token.  `(t.drop j).head?` is "the character
of `t` at index `j`". -/

/-- Keyword `kw` occurs in `t` at index `i` as a case-insensitive whole word:
it fits, the case-folded slice equals the case-folded keyword, and on each
side the occurrence is delimited by the string edge or a non-word character. -/
def occursWordAt (kw t : List Char) (i : Nat) : Prop :=
  i + kw.length ≤ t.length ∧
  pyUpper ((t.drop i).take kw.length) = pyUpper kw ∧
  (i = 0 ∨ ∃ c, (t.drop (i - 1)).head? = some c ∧ isWordChar c = false) ∧
  (i + kw.length = t.length ∨
    ∃ c, (t.drop (i + kw.length)).head? = some c ∧ isWordChar c = false)

/-- The position `i` of `s` is preceded by a non-word character, or is the
start of the scan (in which case `prev` records the character before the
scan's origin). -/
def leftBoundary (prev : Bool) (s : List Char) (i : Nat) : Prop :=
  (i = 0 ∧ prev = false) ∨
    (∃ j c, i = j + 1 ∧ (s.drop j).head? = some c ∧ isWordChar c = false)

/-- The first whitespace-delimited token of `t`, case-folded, is exactly
`SELECT` or `WITH`: `t` splits as whitespace, then a non-empty token free of
whitespace, then either nothing or a whitespace-led remainder. -/
def specFirstTokenOk (t : List Char) : Prop :=
  ∃ ws tok rest, t = ws ++ tok ++ rest ∧ (∀ c ∈ ws, isSpace c = true) ∧
    tok ≠ [] ∧ (∀ c ∈ tok, isSpace c = false) ∧
    (rest = [] ∨ ∃ d rest2, rest = d :: rest2 ∧ isSpace d = true) ∧
    (pyUpper tok = selectKw ∨ pyUpper tok = withKw)

/-- No dangerous keyword occurs anywhere in `t` as a case-insensitive whole word. -/
def specNoDangerous (t : List Char) : Prop :=
  ¬ ∃ kw, kw ∈ dangerousKws ∧ ∃ i, occursWordAt kw t i

/-! ### Basic length facts -/

lemma length_dropWhile_le {α : Type} (p : α → Bool) (l : List α) :
    (l.dropWhile p).length ≤ l.length := by
  induction l with
  | nil => simp [List.dropWhile]
  | cons c cs ih =>
      by_cases h : p c
      · simp only [List.dropWhile_cons_of_pos h, List.length_cons]
        exact Nat.le_succ_of_le ih
      · simp [List.dropWhile_cons_of_neg h]

lemma length_stripEnd_le (s : List Char) : (stripEnd s).length ≤ s.length := by
  simp only [stripEnd, List.length_reverse]
  calc (s.reverse.dropWhile isSpace).length ≤ s.reverse.length := length_dropWhile_le _ _
    _ = s.length := List.length_reverse s

lemma length_strip_le (s : List Char) : (strip s).length ≤ s.length := by
  calc (strip s).length ≤ (s.dropWhile isSpace).length := length_stripEnd_le _
    _ ≤ s.length := length_dropWhile_le _ _

lemma length_afterFirstNl_lt (s : List Char) (h : hasNl s = true) :
    (afterFirstNl s).length < s.length := by
  induction s with
  | nil => simp [hasNl] at h
  | cons c cs ih =>
      by_cases hc : c = '\n'
      · simp [afterFirstNl, hc]
      · have h' : hasNl cs = true := by
          simp [hasNl, List.any_cons, hc] at h ⊢
          tauto
        simp only [afterFirstNl, if_neg hc, List.length_cons]
        exact Nat.lt_succ_of_lt (ih h')

lemma dropWhile_eq_self_of_length {α : Type} (p : α → Bool) (l : List α)
    (h : (l.dropWhile p).length = l.length) : l.dropWhile p = l := by
  induction l with
  | nil => rfl
  | cons c cs ih =>
      by_cases hc : p c
      · exfalso
        rw [List.dropWhile_cons_of_pos hc] at h
        have := length_dropWhile_le p cs
        simp only [List.length_cons] at h
        omega
      · rw [List.dropWhile_cons_of_neg hc]

lemma strip_eq_self_of_length {s : List Char} (h : (strip s).length = s.length) :
    strip s = s := by
  have hd : (s.dropWhile isSpace).length = s.length := by
    have a := length_stripEnd_le (s.dropWhile isSpace)
    have b := length_dropWhile_le isSpace s
    unfold strip at h
    omega
  have h2 : s.dropWhile isSpace = s := dropWhile_eq_self_of_length _ _ hd
  unfold strip
  rw [h2]
  have h3 : (stripEnd s).length = s.length := by
    unfold strip at h
    rw [h2] at h
    exact h
  have h4 : (s.reverse.dropWhile isSpace).length = s.reverse.length := by
    unfold stripEnd at h3
    rw [List.length_reverse] at h3
    rw [List.length_reverse]
    exact h3
  unfold stripEnd
  rw [dropWhile_eq_self_of_length _ _ h4, List.reverse_reverse]

/-! ### The line-comment loop: fuel stability and divergence -/

lemma stripLineFuel_succ_mono : ∀ {m : Nat} {s t : List Char},
    stripLineFuel m s = some t → stripLineFuel (m + 1) s = some t := by
  intro m
  induction m with
  | zero => intro s t h; simp [stripLineFuel] at h
  | succ m ih =>
      intro s t h
      rw [stripLineFuel] at h ⊢
      by_cases hl : leadsWith dashdash s = true
      · rw [if_pos hl] at h ⊢
        exact ih h
      · rw [if_neg hl] at h ⊢
        exact h

lemma stripLineFuel_le_mono {m n : Nat} (hmn : m ≤ n) {s t : List Char}
    (h : stripLineFuel m s = some t) : stripLineFuel n s = some t := by
  induction hmn with
  | refl => exact h
  | step _ ih => exact stripLineFuel_succ_mono ih

/-- A `--`-prefixed string without a newline that `strip` leaves unchanged is
a fixed point of the loop body: the loop never exits, for any fuel. -/
lemma stripLineFuel_none_of_fixed {s : List Char} (hl : leadsWith dashdash s = true)
    (hn : hasNl s = false) (hs : strip s = s) : ∀ n, stripLineFuel n s = none := by
  intro n
  induction n with
  | zero => rfl
  | succ n ih =>
      rw [stripLineFuel, if_pos hl]
      have h1 : splitNlTail s = s := by
        rw [splitNlTail, if_neg]
        simp [hn]
      rw [h1, hs]
      exact ih

/-- Either `length + 1` iterations of the line-comment loop suffice, or the
loop never exits for any number of iterations. -/
lemma stripLineFuel_total_or_div :
    ∀ (L : Nat) (s : List Char), s.length ≤ L →
      (∃ t, stripLineFuel (s.length + 1) s = some t) ∨ ∀ n, stripLineFuel n s = none := by
  intro L
  induction L with
  | zero =>
      intro s hs
      left
      have : s = [] := List.length_eq_zero.mp (Nat.le_zero.mp hs)
      subst this
      exact ⟨[], rfl⟩
  | succ L ih =>
      intro s hs
      by_cases hl : leadsWith dashdash s = true
      · have hbody : ∀ n, stripLineFuel (n + 1) s = stripLineFuel n (strip (splitNlTail s)) := by
          intro n
          rw [stripLineFuel, if_pos hl]
        set t := strip (splitNlTail s) with ht
        by_cases hlt : t.length < s.length
        · rcases ih t (by omega) with ⟨u, hu⟩ | hdiv
          · left
            refine ⟨u, ?_⟩
            rw [hbody]
            exact stripLineFuel_le_mono (by omega) hu
          · right
            intro n
            cases n with
            | zero => rfl
            | succ n => rw [hbody]; exact hdiv n
        · -- no progress: the body fixes `s`, so the loop diverges
          have hnl : hasNl s = false := by
            by_contra hcon
            have hcon' : hasNl s = true := by
              cases h : hasNl s
              · exact absurd h hcon
              · rfl
            have h1 : splitNlTail s = afterFirstNl s := by
              rw [splitNlTail, if_pos hcon']
            have : t.length < s.length := by
              rw [ht, h1]
              exact Nat.lt_of_le_of_lt (length_strip_le _) (length_afterFirstNl_lt s hcon')
            omega
          have h1 : splitNlTail s = s := by
            rw [splitNlTail, if_neg]
            simp [hnl]
          have hlen : (strip s).length = s.length := by
            have := length_strip_le s
            rw [ht, h1] at hlt
            omega
          have hfix : strip s = s := strip_eq_self_of_length hlen
          right
          exact stripLineFuel_none_of_fixed hl hnl hfix
      · left
        refine ⟨s, ?_⟩
        rw [stripLineFuel, if_neg hl]

/-- Equality `stripLineComments s = none` holds exactly when the Python loop has not
exited after `n` iterations, for every `n`: the `none` of the model is real
divergence. -/
lemma stripLineComments_none_iff (s : List Char) :
    stripLineComments s = none ↔ ∀ n, stripLineFuel n s = none := by
  constructor
  · intro h n
    rcases stripLineFuel_total_or_div s.length s (Nat.le_refl _) with ⟨t, htt⟩ | hdiv
    · rw [stripLineComments] at h
      rw [h] at htt
      exact absurd htt (by simp)
    · exact hdiv n
  · intro h
    rw [stripLineComments]
    exact h _

/-- Conversely, whenever the Python loop exits with a value after some number
of iterations, the model returns exactly that value: together with
`stripLineComments_none_iff`, the wrapper computes precisely the loop's
outcome. -/
lemma stripLineComments_some_iff (s t : List Char) :
    stripLineComments s = some t ↔ ∃ n, stripLineFuel n s = some t := by
  constructor
  · intro h
    exact ⟨s.length + 1, h⟩
  · rintro ⟨n, h⟩
    rcases Nat.le_total n (s.length + 1) with hle | hle
    · exact stripLineFuel_le_mono hle h
    · rcases stripLineFuel_total_or_div s.length s (Nat.le_refl _) with ⟨u, hu⟩ | hdiv
      · have hn : stripLineFuel n s = some u := stripLineFuel_le_mono hle hu
        rw [hn] at h
        injection h with h
        rw [stripLineComments, hu, h]
      · rw [hdiv n] at h
        exact absurd h (by simp)

/-! ### The block-comment loop and the fence scanner: fuel stability -/

lemma leadsWith_ne_nil {p : Char} {ps s : List Char} (h : leadsWith (p :: ps) s = true) :
    s ≠ [] := by
  cases s with
  | nil => simp [leadsWith] at h
  | cons c cs => simp

lemma leadsWith_length_le : ∀ {p s : List Char}, leadsWith p s = true → p.length ≤ s.length := by
  intro p
  induction p with
  | nil => intro s _; simp
  | cons x xs ih =>
      intro s h
      cases s with
      | nil => simp [leadsWith] at h
      | cons c cs =>
          simp only [leadsWith, Bool.and_eq_true, decide_eq_true_eq] at h
          simp only [List.length_cons, Nat.succ_le_succ_iff]
          exact ih h.2

/-- The block-comment loop terminates: any fuel past `length + 1` computes the
same result, so `stripBlockComments` does not depend on the chosen bound. -/
lemma blockFuel_stable :
    ∀ (L : Nat) (s : List Char), s.length ≤ L → ∀ n m, s.length + 1 ≤ n →
      s.length + 1 ≤ m → blockFuel n s = blockFuel m s := by
  intro L
  induction L with
  | zero =>
      intro s hs n m hn hm
      have : s = [] := List.length_eq_zero.mp (Nat.le_zero.mp hs)
      subst this
      cases n with
      | zero => omega
      | succ n =>
          cases m with
          | zero => omega
          | succ m => rfl
  | succ L ih =>
      intro s hs n m hn hm
      cases n with
      | zero => omega
      | succ n =>
          cases m with
          | zero => omega
          | succ m =>
              rw [blockFuel, blockFuel]
              by_cases hl : leadsWith slashStar s = true
              · rw [if_pos hl, if_pos hl]
                cases he : findSub starSlash s with
                | none => rfl
                | some e =>
                    have hne : s ≠ [] := leadsWith_ne_nil hl
                    have hpos : 0 < s.length := List.length_pos.mpr hne
                    have hlen : (strip (s.drop (e + 2))).length < s.length := by
                      have h1 := length_strip_le (s.drop (e + 2))
                      rw [List.length_drop] at h1
                      omega
                    exact ih _ (by omega) n m (by omega) (by omega)
              · rw [if_neg hl, if_neg hl]

/-- The fence scanner consumes at least one character per step: any fuel past
`length + 1` computes the same result. -/
lemma scanFuel_stable :
    ∀ (L : Nat) (s : List Char), s.length ≤ L → ∀ n m, s.length + 1 ≤ n →
      s.length + 1 ≤ m → scanFuel n s = scanFuel m s := by
  intro L
  induction L with
  | zero =>
      intro s hs n m hn hm
      have : s = [] := List.length_eq_zero.mp (Nat.le_zero.mp hs)
      subst this
      cases n with
      | zero => omega
      | succ n =>
          cases m with
          | zero => omega
          | succ m => rfl
  | succ L ih =>
      intro s hs n m hn hm
      cases n with
      | zero => omega
      | succ n =>
          cases m with
          | zero => omega
          | succ m =>
              cases s with
              | nil => rfl
              | cons c rest =>
                  rw [scanFuel, scanFuel]
                  by_cases hl : leadsWith fenceSql (c :: rest) = true
                  · rw [if_pos hl, if_pos hl]
                    have h6 : 6 ≤ (c :: rest).length := leadsWith_length_le hl
                    cases hq : findSub fence ((c :: rest).drop 6) with
                    | none =>
                        simp only [hq]
                        simp only [List.length_cons] at hs hn hm
                        exact ih rest (by omega) n m (by omega) (by omega)
                    | some q =>
                        simp only [hq]
                        have hlen : (((c :: rest).drop 6).drop (q + 3)).length + 1 ≤ (c :: rest).length := by
                          rw [List.length_drop, List.length_drop]
                          omega
                        refine congrArg _ ?_
                        exact ih _ (by omega) n m (by omega) (by omega)
                  · rw [if_neg hl, if_neg hl]
                    simp only [List.length_cons] at hs hn hm
                    exact ih rest (by omega) n m (by omega) (by omega)

lemma extract_sql_nil : extract_sql [] = [] := rfl

/-- The scanner's defining equation, independent of the fuel bound. -/
lemma extract_sql_cons (c : Char) (rest : List Char) :
    extract_sql (c :: rest) =
      if leadsWith fenceSql (c :: rest) then
        match findSub fence ((c :: rest).drop 6) with
        | none => extract_sql rest
        | some q =>
            strip (((c :: rest).drop 6).take q) ::
              extract_sql (((c :: rest).drop 6).drop (q + 3))
      else extract_sql rest := by
  rw [extract_sql, scanFuel]
  by_cases hl : leadsWith fenceSql (c :: rest) = true
  · rw [if_pos hl, if_pos hl]
    have h6 : 6 ≤ (c :: rest).length := leadsWith_length_le hl
    cases hq : findSub fence ((c :: rest).drop 6) with
    | none =>
        simp only [hq, List.length_cons]
        rfl
    | some q =>
        simp only [hq]
        refine congrArg _ ?_
        rw [extract_sql]
        have hlen : (((c :: rest).drop 6).drop (q + 3)).length + 1 ≤ (c :: rest).length := by
          rw [List.length_drop, List.length_drop]
          omega
        set x := ((c :: rest).drop 6).drop (q + 3) with hx
        exact scanFuel_stable x.length x (Nat.le_refl _) _ _ (by omega) (Nat.le_refl _)
  · rw [if_neg hl, if_neg hl]
    simp only [List.length_cons]
    rfl

/-! ### The fence scanner equals its first-occurrence specification -/

lemma findSub_eq_none_iff (pat : List Char) :
    ∀ s : List Char, findSub pat s = none ↔ ∀ i, leadsWith pat (s.drop i) = false := by
  intro s
  induction s with
  | nil =>
      simp only [findSub, List.drop_nil]
      by_cases h : leadsWith pat [] = true
      · simp [h]
      · simp only [Bool.not_eq_true] at h
        simp [h]
  | cons c cs ih =>
      by_cases h : leadsWith pat (c :: cs) = true
      · simp only [findSub, if_pos h]
        constructor
        · intro hc; exact absurd hc (by simp)
        · intro hall
          have := hall 0
          simp only [List.drop_zero] at this
          rw [h] at this
          exact absurd this (by simp)
      · simp only [findSub, if_neg h]
        constructor
        · intro hmap i
          cases i with
          | zero =>
              simp only [List.drop_zero]
              simp only [Bool.not_eq_true] at h
              exact h
          | succ i =>
              have hnone : findSub pat cs = none := by
                cases hf : findSub pat cs with
                | none => rfl
                | some j => rw [hf] at hmap; simp at hmap
              rw [ih] at hnone
              simpa [List.drop_succ_cons] using hnone i
        · intro hall
          have hnone : findSub pat cs = none := by
            rw [ih]
            intro i
            simpa [List.drop_succ_cons] using hall (i + 1)
          rw [hnone]
          rfl

lemma findSub_eq_some_zero {pat s : List Char} (h : findSub pat s = some 0) :
    leadsWith pat s = true := by
  cases s with
  | nil =>
      simp only [findSub] at h
      by_cases hl : leadsWith pat [] = true
      · exact hl
      · rw [if_neg hl] at h; exact absurd h (by simp)
  | cons c cs =>
      by_cases hl : leadsWith pat (c :: cs) = true
      · exact hl
      · simp only [findSub, if_neg hl] at h
        cases hf : findSub pat cs with
        | none => rw [hf] at h; exact absurd h (by simp)
        | some i => rw [hf] at h; simp at h

lemma findSub_cons_succ {pat : List Char} {c : Char} {cs : List Char} {i : Nat}
    (h : findSub pat (c :: cs) = some (i + 1)) :
    leadsWith pat (c :: cs) = false ∧ findSub pat cs = some i := by
  by_cases hl : leadsWith pat (c :: cs) = true
  · simp only [findSub, if_pos hl] at h
    simp at h
  · simp only [findSub, if_neg hl] at h
    cases hf : findSub pat cs with
    | none => rw [hf] at h; exact absurd h (by simp)
    | some j =>
        rw [hf] at h
        simp only [Option.map_some', Option.some.injEq] at h
        refine ⟨by simp [hl], ?_⟩
        exact congrArg some (by omega)

lemma leadsWith_append_left : ∀ {p q s : List Char},
    leadsWith (p ++ q) s = true → leadsWith p s = true := by
  intro p
  induction p with
  | nil => intro q s _; rfl
  | cons x xs ih =>
      intro q s h
      cases s with
      | nil => simp [leadsWith] at h
      | cons c cs =>
          simp only [List.cons_append, leadsWith, Bool.and_eq_true] at h ⊢
          exact ⟨h.1, ih h.2⟩

lemma leadsWith_eq_append : ∀ {p s : List Char},
    leadsWith p s = true → s = p ++ s.drop p.length := by
  intro p
  induction p with
  | nil => intro s _; simp
  | cons x xs ih =>
      intro s h
      cases s with
      | nil => simp [leadsWith] at h
      | cons c cs =>
          simp only [leadsWith, Bool.and_eq_true, decide_eq_true_eq] at h
          obtain ⟨hx, h2⟩ := h
          subst hx
          simp only [List.cons_append, List.length_cons, List.drop_succ_cons,
            List.cons.injEq, true_and]
          exact ih h2

lemma fence_of_fenceSql {s : List Char} (h : leadsWith fenceSql s = true) :
    leadsWith fence s = true := by
  have hfs : fenceSql = fence ++ ("sql").data := by decide
  rw [hfs] at h
  exact leadsWith_append_left h

lemma fenceSql_shape {s : List Char} (h : leadsWith fenceSql s = true) :
    ∃ tail, s = '`' :: '`' :: '`' :: 's' :: 'q' :: 'l' :: tail := by
  refine ⟨s.drop 6, ?_⟩
  have := leadsWith_eq_append h
  simpa [fenceSql] using this

/-- Two occurrences of the opening marker cannot overlap: if it matches at a
position, it cannot match again within the next five characters. -/
lemma fenceSql_no_overlap {s : List Char} (h : leadsWith fenceSql s = true) :
    ∀ j, 1 ≤ j → j ≤ 5 → leadsWith fenceSql (s.drop j) = false := by
  obtain ⟨tail, rfl⟩ := fenceSql_shape h
  intro j h1 h5
  interval_cases j <;> simp [leadsWith, fenceSql]

/-- If the opening marker matches at the head but no closing fence follows it,
there is no later occurrence of the opening marker either (any such occurrence
would contain a closing fence). -/
lemma no_later_fenceSql {c : Char} {rest : List Char}
    (h : leadsWith fenceSql (c :: rest) = true)
    (hq : findSub fence ((c :: rest).drop 6) = none) :
    findSub fenceSql rest = none := by
  rw [findSub_eq_none_iff]
  intro i
  by_contra hcon
  have hocc : leadsWith fenceSql (rest.drop i) = true := by
    cases hb : leadsWith fenceSql (rest.drop i)
    · exact absurd hb hcon
    · rfl
  have hstep : rest.drop i = (c :: rest).drop (i + 1) := by
    simp [List.drop_succ_cons]
  by_cases hle : i + 1 ≤ 5
  · have := fenceSql_no_overlap h (i + 1) (by omega) hle
    rw [← hstep] at this
    rw [hocc] at this
    exact absurd this (by simp)
  · have h6 : 6 ≤ i + 1 := by omega
    have hdrop : (c :: rest).drop (i + 1) = ((c :: rest).drop 6).drop (i + 1 - 6) := by
      rw [List.drop_drop]
      congr 1
      omega
    have hffence : leadsWith fence (((c :: rest).drop 6).drop (i + 1 - 6)) = true := by
      rw [← hdrop, ← hstep]
      exact fence_of_fenceSql hocc
    rw [findSub_eq_none_iff] at hq
    have := hq (i + 1 - 6)
    rw [hffence] at this
    exact absurd this (by simp)

lemma extract_sql_eq_nil_of_no_fence {s : List Char}
    (h : findSub fenceSql s = none) : extract_sql s = [] := by
  induction s with
  | nil => rfl
  | cons c cs ih =>
      rw [findSub_eq_none_iff] at h
      have h0 := h 0
      simp only [List.drop_zero] at h0
      rw [extract_sql_cons, if_neg (by simp [h0])]
      apply ih
      rw [findSub_eq_none_iff]
      intro i
      have := h (i + 1)
      simpa [List.drop_succ_cons] using this

lemma extract_sql_walk : ∀ (i : Nat) (t : List Char), findSub fenceSql t = some i →
    extract_sql t = extract_sql (t.drop i) ∧ leadsWith fenceSql (t.drop i) = true := by
  intro i
  induction i with
  | zero =>
      intro t h
      rw [List.drop_zero]
      exact ⟨rfl, findSub_eq_some_zero h⟩
  | succ i ih =>
      intro t h
      cases t with
      | nil => simp [findSub, leadsWith, fenceSql] at h
      | cons c cs =>
          obtain ⟨hneg, hsome⟩ := findSub_cons_succ h
          obtain ⟨ih1, ih2⟩ := ih cs hsome
          rw [List.drop_succ_cons]
          refine ⟨?_, ih2⟩
          rw [extract_sql_cons, if_neg (by simp [hneg])]
          exact ih1

/-- The scanner behind `extract_sql` computes exactly the first-occurrence
specification `extractSqlSpec`. -/
lemma extract_sql_eq_spec_bounded :
    ∀ (L : Nat) (t : List Char), t.length ≤ L → extract_sql t = extractSqlSpec t := by
  intro L
  induction L with
  | zero =>
      intro t ht
      have hnil : t = [] := List.length_eq_zero.mp (Nat.le_zero.mp ht)
      subst hnil
      have hf : findSub fenceSql ([] : List Char) = none := by decide
      rw [extractSqlSpec]
      split
      · rfl
      · rename_i i hcontra
        rw [hf] at hcontra
        exact absurd hcontra (by simp)
  | succ L ih =>
      intro t ht
      rw [extractSqlSpec]
      split
      · rename_i hf
        exact extract_sql_eq_nil_of_no_fence hf
      · rename_i i hf
        obtain ⟨hwalk, hlead⟩ := extract_sql_walk i t hf
        have hlen6 : 6 ≤ (t.drop i).length := leadsWith_length_le hlead
        have hdropu : (t.drop i).drop 6 = t.drop (i + 6) := by
          rw [List.drop_drop]
        cases hq : findSub fence (t.drop (i + 6)) with
        | none =>
            simp only [hq]
            rw [hwalk]
            cases hu : t.drop i with
            | nil => rw [hu] at hlead; simp [leadsWith, fenceSql] at hlead
            | cons c rest =>
                rw [hu] at hlead
                have hq' : findSub fence ((c :: rest).drop 6) = none := by
                  rw [← hu, hdropu]
                  exact hq
                rw [extract_sql_cons, if_pos hlead]
                simp only [hq']
                exact extract_sql_eq_nil_of_no_fence (no_later_fenceSql hlead hq')
        | some q =>
            simp only [hq]
            rw [hwalk]
            cases hu : t.drop i with
            | nil => rw [hu] at hlead; simp [leadsWith, fenceSql] at hlead
            | cons c rest =>
                rw [hu] at hlead
                have hq' : findSub fence ((c :: rest).drop 6) = some q := by
                  rw [← hu, hdropu]
                  exact hq
                rw [extract_sql_cons, if_pos hlead]
                simp only [hq']
                have harg : (c :: rest).drop 6 = t.drop (i + 6) := by
                  rw [← hu, hdropu]
                rw [harg]
                refine congrArg _ ?_
                apply ih
                have h1 : (t.drop (i + 6)).length = t.length - (i + 6) := List.length_drop _ _
                have h2 : ((t.drop (i + 6)).drop (q + 3)).length = (t.drop (i + 6)).length - (q + 3) :=
                  List.length_drop _ _
                have h3 : 6 ≤ t.length := by
                  have := List.length_drop i t
                  omega
                omega

lemma extract_sql_eq_spec (t : List Char) : extract_sql t = extractSqlSpec t :=
  extract_sql_eq_spec_bounded t.length t (Nat.le_refl _)

/-! ### Characterising the keyword search (`DANGEROUS_KEYWORDS` / `OFF_TOPIC_PATTERNS`) -/

lemma mem_takeWhile_pos {α : Type} (p : α → Bool) :
    ∀ (l : List α) (c : α), c ∈ l.takeWhile p → p c = true := by
  intro l
  induction l with
  | nil => intro c hc; simp [List.takeWhile] at hc
  | cons x xs ih =>
      intro c hc
      by_cases hx : p x
      · rw [List.takeWhile_cons_of_pos hx] at hc
        rcases List.mem_cons.mp hc with rfl | hc'
        · exact hx
        · exact ih c hc'
      · rw [List.takeWhile_cons_of_neg hx] at hc
        simp at hc

lemma dropWhile_eq_cons_head {α : Type} (p : α → Bool) :
    ∀ (l : List α) (c : α) (cs : List α), l.dropWhile p = c :: cs → p c = false := by
  intro l
  induction l with
  | nil => intro c cs h; simp [List.dropWhile] at h
  | cons x xs ih =>
      intro c cs h
      by_cases hx : p x
      · rw [List.dropWhile_cons_of_pos hx] at h
        exact ih c cs h
      · rw [List.dropWhile_cons_of_neg hx] at h
        injection h with h1 h2
        subst h1
        simpa using hx

lemma dropWhile_append_all {α : Type} (p : α → Bool) :
    ∀ (l1 l2 : List α), (∀ c ∈ l1, p c = true) →
      (l1 ++ l2).dropWhile p = l2.dropWhile p := by
  intro l1
  induction l1 with
  | nil => intro l2 _; rfl
  | cons x xs ih =>
      intro l2 hall
      have hx : p x = true := hall x (List.mem_cons_self x xs)
      rw [List.cons_append, List.dropWhile_cons_of_pos hx]
      exact ih l2 (fun c hc => hall c (List.mem_cons_of_mem x hc))

lemma takeWhile_append_all {α : Type} (p : α → Bool) :
    ∀ (l1 l2 : List α), (∀ c ∈ l1, p c = true) →
      (l1 ++ l2).takeWhile p = l1 ++ l2.takeWhile p := by
  intro l1
  induction l1 with
  | nil => intro l2 _; rfl
  | cons x xs ih =>
      intro l2 hall
      have hx : p x = true := hall x (List.mem_cons_self x xs)
      rw [List.cons_append, List.takeWhile_cons_of_pos hx, List.cons_append]
      rw [ih l2 (fun c hc => hall c (List.mem_cons_of_mem x hc))]

lemma ciMatchHere_eq_some_iff :
    ∀ (kw s r : List Char),
      ciMatchHere kw s = some r ↔
        (kw.length ≤ s.length ∧ pyUpper (s.take kw.length) = pyUpper kw ∧
          r = s.drop kw.length) := by
  intro kw
  induction kw with
  | nil =>
      intro s r
      simp [ciMatchHere, pyUpper, eq_comm]
  | cons k ks ih =>
      intro s r
      cases s with
      | nil =>
          simp only [ciMatchHere, List.length_cons, List.length_nil]
          constructor
          · intro h; exact absurd h (by simp)
          · rintro ⟨h, -⟩; omega
      | cons c cs =>
          by_cases hk : ciEqChar k c = true
          · simp only [ciMatchHere, if_pos hk]
            rw [ih cs r]
            simp only [List.length_cons, List.take_succ_cons, List.drop_succ_cons,
              Nat.succ_le_succ_iff]
            have hup : upChar c = upChar k := by
              have := by simpa [ciEqChar] using hk
              exact this.symm
            constructor
            · rintro ⟨h1, h2, h3⟩
              refine ⟨h1, ?_, h3⟩
              simp only [pyUpper, List.map_cons] at h2 ⊢
              rw [hup]
              exact congrArg _ h2
            · rintro ⟨h1, h2, h3⟩
              refine ⟨h1, ?_, h3⟩
              simp only [pyUpper, List.map_cons, List.cons.injEq] at h2
              simp only [pyUpper]
              exact h2.2
          · simp only [ciMatchHere, if_neg hk]
            constructor
            · intro h; exact absurd h (by simp)
            · rintro ⟨-, h2, -⟩
              exfalso
              simp only [List.length_cons, List.take_succ_cons, pyUpper, List.map_cons,
                List.cons.injEq] at h2
              exact hk (by simp [ciEqChar, h2.1])

lemma wordAt_iff (kw s : List Char) :
    wordAt kw s = true ↔
      (kw.length ≤ s.length ∧ pyUpper (s.take kw.length) = pyUpper kw ∧
        (kw.length = s.length ∨
          ∃ c, (s.drop kw.length).head? = some c ∧ isWordChar c = false)) := by
  rw [wordAt]
  cases hm : ciMatchHere kw s with
  | none =>
      constructor
      · intro h; exact absurd h (by simp)
      · rintro ⟨h1, h2, -⟩
        exfalso
        have := (ciMatchHere_eq_some_iff kw s (s.drop kw.length)).mpr ⟨h1, h2, rfl⟩
        rw [hm] at this
        exact absurd this (by simp)
  | some r =>
      obtain ⟨h1, h2, rfl⟩ := (ciMatchHere_eq_some_iff kw s _).mp hm
      cases hr : s.drop kw.length with
      | nil =>
          simp only [List.head?_nil]
          constructor
          · intro _
            refine ⟨h1, h2, Or.inl ?_⟩
            have := congrArg List.length hr
            rw [List.length_drop] at this
            simp only [List.length_nil] at this
            omega
          · intro _; trivial
      | cons d ds =>
          simp only [List.head?_cons]
          constructor
          · intro h
            refine ⟨h1, h2, Or.inr ⟨d, rfl, ?_⟩⟩
            simpa using h
          · rintro ⟨-, -, hor⟩
            rcases hor with heq | ⟨c, hc, hw⟩
            · exfalso
              have := congrArg List.length hr
              rw [List.length_drop] at this
              simp only [List.length_cons] at this
              omega
            · simp only [Option.some.injEq] at hc
              subst hc
              simpa using hw

lemma searchFrom_iff (kws : List (List Char)) (hkws : ∀ kw ∈ kws, kw ≠ []) :
    ∀ (s : List Char) (prev : Bool),
      searchFrom kws prev s = true ↔
        ∃ i kw, kw ∈ kws ∧ leftBoundary prev s i ∧ wordAt kw (s.drop i) = true := by
  intro s
  induction s with
  | nil =>
      intro prev
      simp only [searchFrom]
      constructor
      · intro h; exact absurd h (by simp)
      · rintro ⟨i, kw, hmem, -, hword⟩
        exfalso
        have hne := hkws kw hmem
        cases hkwc : kw with
        | nil => exact hne hkwc
        | cons k ks =>
            rw [hkwc] at hword
            simp [wordAt, ciMatchHere, List.drop_nil] at hword
  | cons c cs ih =>
      intro prev
      rw [searchFrom, Bool.or_eq_true, Bool.and_eq_true, List.any_eq_true]
      rw [ih (isWordChar c)]
      constructor
      · rintro (⟨hprev, kw, hmem, hword⟩ | ⟨i, kw, hmem, hlb, hword⟩)
        · refine ⟨0, kw, hmem, Or.inl ⟨rfl, by simpa using hprev⟩, by simpa using hword⟩
        · refine ⟨i + 1, kw, hmem, ?_, by simpa [List.drop_succ_cons] using hword⟩
          rcases hlb with ⟨rfl, hpw⟩ | ⟨j, d, rfl, hd, hw⟩
          · exact Or.inr ⟨0, c, rfl, by simp, by simpa using hpw⟩
          · exact Or.inr ⟨j + 1, d, rfl, by simpa [List.drop_succ_cons] using hd, hw⟩
      · rintro ⟨i, kw, hmem, hlb, hword⟩
        cases i with
        | zero =>
            left
            rcases hlb with ⟨-, hprev⟩ | ⟨j, d, hj, -, -⟩
            · exact ⟨by simp [hprev], kw, hmem, by simpa using hword⟩
            · exact absurd hj (by omega)
        | succ i =>
            right
            refine ⟨i, kw, hmem, ?_, by simpa [List.drop_succ_cons] using hword⟩
            rcases hlb with ⟨hcon, -⟩ | ⟨j, d, hj, hd, hw⟩
            · exact absurd hcon (by omega)
            · cases j with
              | zero =>
                  left
                  have hij : i = 0 := by omega
                  subst hij
                  simp only [List.drop_zero, List.head?_cons, Option.some.injEq] at hd
                  subst hd
                  exact ⟨rfl, by simpa using hw⟩
              | succ j =>
                  right
                  have hij : i = j + 1 := by omega
                  subst hij
                  exact ⟨j, d, rfl, by simpa [List.drop_succ_cons] using hd, hw⟩

lemma wordSearch_iff (kws : List (List Char)) (hkws : ∀ kw ∈ kws, kw ≠ []) (s : List Char) :
    wordSearch kws s = true ↔ ∃ kw, kw ∈ kws ∧ ∃ i, occursWordAt kw s i := by
  rw [wordSearch, searchFrom_iff kws hkws s false]
  constructor
  · rintro ⟨i, kw, hmem, hlb, hword⟩
    refine ⟨kw, hmem, i, ?_⟩
    rw [wordAt_iff] at hword
    obtain ⟨h1, h2, h3⟩ := hword
    have hlen : (s.drop i).length = s.length - i := List.length_drop i s
    have hkwpos : 0 < kw.length := List.length_pos.mpr (hkws kw hmem)
    refine ⟨by omega, h2, ?_, ?_⟩
    · rcases hlb with ⟨rfl, -⟩ | ⟨j, c, rfl, hd, hw⟩
      · exact Or.inl rfl
      · exact Or.inr ⟨c, by simpa using hd, hw⟩
    · rcases h3 with heq | ⟨c, hc, hw⟩
      · left; omega
      · right
        refine ⟨c, ?_, hw⟩
        rw [List.drop_drop] at hc
        exact hc
  · rintro ⟨kw, hmem, i, h1, h2, h3, h4⟩
    refine ⟨i, kw, hmem, ?_, ?_⟩
    · rcases h3 with rfl | ⟨c, hd, hw⟩
      · exact Or.inl ⟨rfl, rfl⟩
      · cases i with
        | zero => exact Or.inl ⟨rfl, rfl⟩
        | succ j => exact Or.inr ⟨j, c, rfl, by simpa using hd, hw⟩
    · rw [wordAt_iff]
      have hlen : (s.drop i).length = s.length - i := List.length_drop i s
      have hkwpos : 0 < kw.length := List.length_pos.mpr (hkws kw hmem)
      refine ⟨by omega, h2, ?_⟩
      rcases h4 with heq | ⟨c, hc, hw⟩
      · left; omega
      · right
        refine ⟨c, ?_, hw⟩
        rw [List.drop_drop]
        exact hc

lemma hasDangerous_iff (t : List Char) :
    hasDangerous t = true ↔ ∃ kw, kw ∈ dangerousKws ∧ ∃ i, occursWordAt kw t i :=
  wordSearch_iff dangerousKws (by decide) t

/-! ### Characterising the first-token check -/

lemma firstWordU_iff (t : List Char) :
    (firstWordU t = selectKw ∨ firstWordU t = withKw) ↔ specFirstTokenOk t := by
  constructor
  · intro h
    cases hd : t.dropWhile isSpace with
    | nil =>
        have hfw : firstWordU t = [] := by
          simp only [firstWordU, hd]
        rw [hfw] at h
        rcases h with h | h <;> exact absurd h (by decide)
    | cons c cs =>
        have hfw : firstWordU t = pyUpper (c :: cs.takeWhile (fun x => !isSpace x)) := by
          simp only [firstWordU, hd]
        refine ⟨t.takeWhile isSpace, c :: cs.takeWhile (fun x => !isSpace x),
          cs.dropWhile (fun x => !isSpace x), ?_, ?_, by simp, ?_, ?_, ?_⟩
        · conv_lhs => rw [← List.takeWhile_append_dropWhile (p := isSpace) (l := t)]
          rw [hd]
          rw [List.append_assoc]
          refine congrArg _ ?_
          simp only [List.cons_append]
          rw [List.takeWhile_append_dropWhile]
        · intro x hx
          exact mem_takeWhile_pos isSpace t x hx
        · intro x hx
          rcases List.mem_cons.mp hx with heq | hx'
          · subst heq
            exact dropWhile_eq_cons_head isSpace t _ cs hd
          · have := mem_takeWhile_pos _ cs x hx'
            simpa using this
        · cases hr : cs.dropWhile (fun x => !isSpace x) with
          | nil => exact Or.inl rfl
          | cons d rest2 =>
              refine Or.inr ⟨d, rest2, rfl, ?_⟩
              have := dropWhile_eq_cons_head _ cs d rest2 hr
              simpa using this
        · rw [← hfw]
          exact h
  · rintro ⟨ws, tok, rest, rfl, hws, htokne, htok, hrest, hsel⟩
    cases tok with
    | nil => exact absurd rfl htokne
    | cons a tok' =>
        have ha : isSpace a = false := htok a (List.mem_cons_self a tok')
        have h1 : (ws ++ (a :: tok') ++ rest).dropWhile isSpace = a :: (tok' ++ rest) := by
          rw [List.append_assoc, dropWhile_append_all isSpace ws _ hws]
          simp only [List.cons_append]
          rw [List.dropWhile_cons_of_neg (by simp [ha])]
        have h2 : (tok' ++ rest).takeWhile (fun x => !isSpace x) = tok' := by
          rw [takeWhile_append_all _ tok' rest
            (fun x hx => by simp [htok x (List.mem_cons_of_mem a hx)])]
          cases hrest with
          | inl hnil => simp [hnil, List.takeWhile]
          | inr hcons =>
              obtain ⟨d, rest2, rfl, hd⟩ := hcons
              rw [List.takeWhile_cons_of_neg (by simp [hd])]
              simp
        have hfw : firstWordU (ws ++ (a :: tok') ++ rest) = pyUpper (a :: tok') := by
          simp only [firstWordU, h1, h2]
        rw [hfw]
        exact hsel

/-! ### Claim C1 -/

/-- C1: for every input on which `is_safe_sql` terminates, it returns `true`
iff, in the comment-stripped and terminator-stripped text, the first
whitespace-delimited token case-folds to exactly `SELECT` or `WITH` and no
case-insensitive whole-word occurrence of any dangerous keyword appears
anywhere; and empty or whitespace-only input yields `false`. -/
theorem is_safe_sql_spec :
    (∀ sql t b, strippedText sql = some t → is_safe_sql sql = some b →
      (b = true ↔ (specFirstTokenOk t ∧ specNoDangerous t))) ∧
    (∀ sql, strip sql = [] → is_safe_sql sql = some false) := by
  constructor
  · intro sql t b hst hsafe
    rw [strippedText] at hst
    cases hsc : strip_sql_comments sql with
    | none =>
        rw [hsc] at hst
        exact absurd hst (by simp)
    | some u =>
        rw [hsc] at hst
        simp only [Option.map_some', Option.some.injEq] at hst
        rw [is_safe_sql, hsc] at hsafe
        simp only [Option.map_some', Option.some.injEq] at hsafe
        subst hst
        rw [← hsafe, safeAfterComments]
        by_cases hcond : (firstWordU (strip (rstripSemi u)) = selectKw ∨
            firstWordU (strip (rstripSemi u)) = withKw)
        · rw [if_pos hcond]
          by_cases hdang : hasDangerous (strip (rstripSemi u)) = true
          · rw [if_pos hdang]
            constructor
            · intro hfalse; exact absurd hfalse (by simp)
            · rintro ⟨-, hnd⟩
              exact absurd ((hasDangerous_iff _).mp hdang) hnd
          · rw [if_neg hdang]
            constructor
            · intro _
              refine ⟨(firstWordU_iff _).mp hcond, ?_⟩
              intro hex
              exact hdang ((hasDangerous_iff _).mpr hex)
            · intro _; rfl
        · rw [if_neg hcond]
          constructor
          · intro hfalse; exact absurd hfalse (by simp)
          · rintro ⟨hspec, -⟩
            exact absurd ((firstWordU_iff _).mpr hspec) hcond
  · intro sql hnil
    rw [is_safe_sql, strip_sql_comments, hnil]
    decide

/-- Witness for C1 at concrete inputs: `SELECT 1` is classified safe and its
stripped text satisfies the specification predicates; whitespace-only input is
classified `false`. -/
theorem is_safe_sql_spec_witness :
    (specFirstTokenOk (("SELECT 1").data) ∧ specNoDangerous (("SELECT 1").data)) ∧
    is_safe_sql (("   ").data) = some false :=
  ⟨(is_safe_sql_spec.1 (("SELECT 1").data) (("SELECT 1").data) true (by decide)
      (by decide)).mp rfl,
    is_safe_sql_spec.2 (("   ").data) (by decide)⟩

/-! ### Claim C5 -/

/-- C5: `run_query` never raises: a raising capability yields the structured
error value carrying the exception text; otherwise the result is the list of
at most `max_rows` records, each pairing the column names with the row's
values in order; and the call in the chat loop uses the default cap 500. -/
theorem run_query_spec :
    (∀ sql conn max_rows e, conn sql = Except.error e →
      run_query sql conn max_rows = QueryResult.error e) ∧
    (∀ sql conn max_rows cols rws, conn sql = Except.ok (cols, rws) →
      run_query sql conn max_rows =
        QueryResult.rows ((rws.take max_rows).map (fun row => cols.zip row)) ∧
      ((rws.take max_rows).map (fun row => cols.zip row)).length ≤ max_rows) ∧
    (∀ sql conn, run_queryDefault sql conn = run_query sql conn 500) := by
  refine ⟨?_, ?_, fun _ _ => rfl⟩
  · intro sql conn m e h
    rw [run_query, h]
  · intro sql conn m cols rws h
    rw [run_query, h]
    refine ⟨rfl, ?_⟩
    rw [List.length_map, List.length_take]
    exact Nat.min_le_left _ _

/-- Witness for C5: a raising capability and a two-row capability with cap 1. -/
theorem run_query_spec_witness :
    run_query (("SELECT 1").data) (fun _ => Except.error (("boom").data)) 500 =
      QueryResult.error (("boom").data) ∧
    run_query (("SELECT 1").data)
      (fun _ => Except.ok ([("A").data], [[("1").data], [("2").data]])) 1 =
      QueryResult.rows [[((("A").data : List Char), (("1").data : List Char))]] :=
  ⟨run_query_spec.1 (("SELECT 1").data) _ 500 (("boom").data) rfl,
    ((run_query_spec.2.1 (("SELECT 1").data) _ 1 [("A").data]
      [[("1").data], [("2").data]] rfl).1).trans (by decide)⟩

/-! ### Claim C6 -/

/-- C6 (counterexample): a fenced region tagged with the distinct language
identifier `sqlite` is not ignored — the extractor returns one entry
containing the tag remainder `ite` glued to the region's content, so on this
input the result is not the empty sequence the claim requires. -/
theorem extract_sql_counterexample :
    extract_sql (("```sqlite\nSELECT 1\n```").data) = [("ite\nSELECT 1").data] ∧
    (("ite\nSELECT 1").data :: ([] : List (List Char))) ≠ [] := by
  exact ⟨by decide, by decide⟩

/-- C6 (amended): `extract_sql` returns, for each occurrence of the opening
marker (three backticks followed by `sql`, including tags that merely begin
with `sql` such as `sqlite`, whose remaining characters then land in the
entry) that is followed by a later closing fence, the text between the marker
and the first subsequent closing fence with surrounding whitespace stripped,
one entry per occurrence in source order (an empty region giving one empty
entry); occurrences without a closing fence contribute nothing, the function
never throws, and it returns the empty sequence when no such occurrence
exists. -/
theorem extract_sql_amended : ∀ t, extract_sql t = extractSqlSpec t :=
  extract_sql_eq_spec

/-! ### Claim C9 -/

/-- C9 (code bug): `is_safe_sql` is not total.  On the input `--x` — a leading
line comment with no following line break — the line-comment loop of
`_strip_sql_comments` never exits (`s.split("\n", 1)[-1]` returns `s` itself
when no newline occurs, and `strip` cannot remove the leading `--`): after any
number `n` of loop iterations the loop is still running, and the model's
fuel-free classifier accordingly has no value. -/
theorem is_safe_sql_divergence :
    (∀ n, is_safe_sql_fuel n (("--x").data) = none) ∧
    is_safe_sql (("--x").data) = none := by
  constructor
  · intro n
    rw [is_safe_sql_fuel]
    have hstrip : strip (("--x").data) = ("--x").data := by decide
    rw [hstrip]
    have hdiv := stripLineFuel_none_of_fixed (s := ("--x").data)
      (by decide) (by decide) (by decide) n
    rw [hdiv]
    rfl
  · decide

/-- Witness for C9 at a concrete fuel value. -/
theorem is_safe_sql_divergence_witness :
    is_safe_sql_fuel 1000 (("--x").data) = none :=
  is_safe_sql_divergence.1 1000

/-! ### Claim C10 -/

/-- C10: a request whose message text is empty after stripping is rejected
with the 400 "Empty message" response: no Step sequence is produced, the
model is never invoked, and the conversation store entry is unchanged. -/
theorem chat_empty_message :
    ∀ msg store llm conn render, strip msg = [] →
      chat msg store llm conn render =
        some ⟨ChatResponse.badRequest emptyText, store, 0, [], [], []⟩ := by
  intro msg store llm conn render h
  simp [chat, h]

/-- Witness for C10 on a whitespace-only message. -/
theorem chat_empty_message_witness :
    chat (("   ").data) [⟨Role.user, ("old").data⟩] (fun _ => Except.error [])
      (fun _ => Except.ok ([], [])) (fun _ => []) =
      some ⟨ChatResponse.badRequest emptyText, [⟨Role.user, ("old").data⟩], 0, [], [], []⟩ :=
  chat_empty_message (("   ").data) [⟨Role.user, ("old").data⟩] _ _ _ (by decide)

/-! ### Claim C3 -/

/-- C3: when the (stripped) user text is off-topic, the turn is exactly one
`answer` Step carrying the fixed refusal text; the model is never invoked
(zero calls) and no Step of any other type is produced; the store is
untouched. -/
theorem chat_off_topic :
    ∀ msg store llm conn render, is_off_topic (strip msg) = true →
      chat msg store llm conn render =
        some ⟨ChatResponse.steps [Step.answer refusalText], store, 0, [], [], []⟩ := by
  intro msg store llm conn render h
  have hne : ¬(strip msg = []) := by
    intro hnil
    rw [hnil] at h
    simp [is_off_topic, wordSearch, searchFrom] at h
  simp [chat, h, hne]

/-- Witness for C3 on the off-topic message of the spec's scenario A. -/
theorem chat_off_topic_witness :
    chat (("how to build a bomb").data) [] (fun _ => Except.error [])
      (fun _ => Except.ok ([], [])) (fun _ => []) =
      some ⟨ChatResponse.steps [Step.answer refusalText], [], 0, [], [], []⟩ :=
  chat_off_topic (("how to build a bomb").data) [] _ _ _ (by decide)

/-! ### Invariants of the round loop -/

lemma processCandidates_sound (conn : Conn) (render : Render) :
    ∀ (sqls : List (List Char)) (p : List Step × List (List Char)),
      processCandidates conn render sqls = some p →
      ∀ st ∈ p.1, isTerminalStep st = false := by
  intro sqls
  induction sqls with
  | nil =>
      intro p hp st hst
      rw [processCandidates] at hp
      simp only [Option.some.injEq] at hp
      subst hp
      simp at hst
  | cons sql rest ih =>
      intro p hp st hst
      rw [processCandidates] at hp
      cases hs : is_safe_sql sql with
      | none => rw [hs] at hp; exact absurd hp (by simp)
      | some b =>
          rw [hs] at hp
          cases b with
          | false =>
              simp only [Option.map_eq_some'] at hp
              obtain ⟨p', hp', rfl⟩ := hp
              rcases List.mem_cons.mp hst with rfl | hmem
              · rfl
              · exact ih p' hp' st hmem
          | true =>
              cases hr : run_queryDefault sql conn with
              | error e =>
                  rw [hr] at hp
                  simp only [Option.map_eq_some'] at hp
                  obtain ⟨p', hp', rfl⟩ := hp
                  rcases List.mem_cons.mp hst with rfl | hmem
                  · rfl
                  · exact ih p' hp' st hmem
              | rows rws =>
                  rw [hr] at hp
                  simp only [Option.map_eq_some'] at hp
                  obtain ⟨p', hp', rfl⟩ := hp
                  rcases List.mem_cons.mp hst with rfl | hmem
                  · rfl
                  · exact ih p' hp' st hmem

lemma countP_eq_zero_of_all_false {l : List Step}
    (h : ∀ st ∈ l, isTerminalStep st = false) :
    l.countP (fun s => isTerminalStep s) = 0 := by
  induction l with
  | nil => rfl
  | cons x xs ih =>
      have hx : isTerminalStep x = false := h x (List.mem_cons_self x xs)
      simp only [List.countP_cons, hx, if_false, Nat.add_zero, Bool.false_eq_true]
      exact ih (fun st hst => h st (List.mem_cons_of_mem x hst))

lemma getLast?_append_right {α : Type} (l1 l2 : List α) (h : l2 ≠ []) :
    (l1 ++ l2).getLast? = l2.getLast? := by
  rw [List.getLast?_append]
  cases hg : l2.getLast? with
  | none =>
      exfalso
      cases l2 with
      | nil => exact h rfl
      | cons a as =>
          rw [List.getLast?_eq_getLast _ (by simp)] at hg
          exact absurd hg (by simp)
  | some y => rfl

/-- Each completed run of the round loop ends its Step sequence with exactly
one terminal Step (`answer` or `error`), which is its last element. -/
lemma runRounds_terminal (llm : Oracle) (conn : Conn) (render : Render) :
    ∀ (n : Nat) (msgs lms : List Message) (out : RoundsOut),
      runRounds llm conn render n msgs lms = some out →
      ∃ st, out.steps.getLast? = some st ∧ isTerminalStep st = true ∧
        out.steps.countP (fun s => isTerminalStep s) = 1 := by
  intro n
  induction n with
  | zero =>
      intro msgs lms out h
      rw [runRounds] at h
      simp only [Option.some.injEq] at h
      subst h
      exact ⟨Step.error exhaustedText, rfl, rfl, rfl⟩
  | succ n ih =>
      intro msgs lms out h
      rw [runRounds] at h
      split at h
      · rename_i e heq
        simp only [Option.some.injEq] at h
        subst h
        exact ⟨Step.error e, rfl, rfl, rfl⟩
      · rename_i resp heq
        split at h
        · simp only [Option.some.injEq] at h
          subst h
          exact ⟨Step.answer resp, rfl, rfl, rfl⟩
        · split at h
          · exact absurd h (by simp)
          · rename_i csteps texts hp
            simp only [Option.map_eq_some'] at h
            obtain ⟨out', hrec, rfl⟩ := h
            obtain ⟨st, hlast, hterm, hcount⟩ := ih _ _ out' hrec
            have hne : out'.steps ≠ [] := by
              intro hnil
              rw [hnil] at hlast
              exact absurd hlast (by simp)
            refine ⟨st, ?_, hterm, ?_⟩
            · show (Step.llmResponse resp :: (csteps ++ out'.steps)).getLast? = some st
              rw [← List.cons_append, getLast?_append_right _ _ hne]
              exact hlast
            · show (Step.llmResponse resp :: (csteps ++ out'.steps)).countP
                (fun s => isTerminalStep s) = 1
              have hc : csteps.countP (fun s => isTerminalStep s) = 0 :=
                countP_eq_zero_of_all_false
                  (processCandidates_sound conn render _ _ hp)
              have h0 : isTerminalStep (Step.llmResponse resp) = false := rfl
              simp only [List.countP_cons, List.countP_append, hc, hcount, h0]
              rfl

/-- The visible message list is extended by exactly one assistant entry per
model response, and the model-facing list by the per-round
`(assistant response, synthetic feedback)` pairs — nothing else. -/
lemma runRounds_msgs (llm : Oracle) (conn : Conn) (render : Render) :
    ∀ (n : Nat) (msgs lms : List Message) (out : RoundsOut),
      runRounds llm conn render n msgs lms = some out →
      out.msgs = msgs ++ out.resps.map (fun r => ⟨Role.assistant, r⟩) ∧
      out.llmMsgs = lms ++ out.fbs.flatMap
        (fun p => [⟨Role.assistant, p.1⟩, ⟨Role.user, p.2⟩]) := by
  intro n
  induction n with
  | zero =>
      intro msgs lms out h
      rw [runRounds] at h
      simp only [Option.some.injEq] at h
      subst h
      simp
  | succ n ih =>
      intro msgs lms out h
      rw [runRounds] at h
      split at h
      · simp only [Option.some.injEq] at h
        subst h
        simp
      · rename_i resp heq
        split at h
        · simp only [Option.some.injEq] at h
          subst h
          simp
        · split at h
          · exact absurd h (by simp)
          · rename_i csteps texts hp
            simp only [Option.map_eq_some'] at h
            obtain ⟨out', hrec, rfl⟩ := h
            obtain ⟨h1, h2⟩ := ih _ _ out' hrec
            constructor
            · show out'.msgs = msgs ++
                (resp :: out'.resps).map (fun r => ⟨Role.assistant, r⟩)
              rw [h1]
              simp
            · show out'.llmMsgs = lms ++
                ((resp, resultMessage texts) :: out'.fbs).flatMap
                  (fun p => [⟨Role.assistant, p.1⟩, ⟨Role.user, p.2⟩])
              rw [h2]
              simp

/-- When a completed run ends in an `answer` Step, its content is the model's
final response. -/
lemma runRounds_answer (llm : Oracle) (conn : Conn) (render : Render) :
    ∀ (n : Nat) (msgs lms : List Message) (out : RoundsOut) (a : List Char),
      runRounds llm conn render n msgs lms = some out →
      out.steps.getLast? = some (Step.answer a) →
      out.resps.getLast? = some a := by
  intro n
  induction n with
  | zero =>
      intro msgs lms out a h hlast
      rw [runRounds] at h
      simp only [Option.some.injEq] at h
      subst h
      simp at hlast
  | succ n ih =>
      intro msgs lms out a h hlast
      rw [runRounds] at h
      split at h
      · simp only [Option.some.injEq] at h
        subst h
        simp at hlast
      · rename_i resp heq
        split at h
        · simp only [Option.some.injEq] at h
          subst h
          have h1 : Step.answer resp = Step.answer a := Option.some.inj hlast
          injection h1 with hresp
          subst hresp
          rfl
        · split at h
          · exact absurd h (by simp)
          · rename_i csteps texts hp
            simp only [Option.map_eq_some'] at h
            obtain ⟨out', hrec, rfl⟩ := h
            obtain ⟨st, hl', -, -⟩ := runRounds_terminal llm conn render n _ _ out' hrec
            have hne : out'.steps ≠ [] := by
              intro hnil
              rw [hnil] at hl'
              exact absurd hl' (by simp)
            have hlast' : out'.steps.getLast? = some (Step.answer a) := by
              rw [show (⟨Step.llmResponse resp :: (csteps ++ out'.steps), out'.msgs,
                  out'.llmMsgs, out'.calls + 1, resp :: out'.resps,
                  (resp, resultMessage texts) :: out'.fbs⟩ : RoundsOut).steps =
                  Step.llmResponse resp :: (csteps ++ out'.steps) from rfl] at hlast
              rw [← List.cons_append, getLast?_append_right _ _ hne] at hlast
              exact hlast
            have hres := ih _ _ out' a hrec hlast'
            have hrne : out'.resps ≠ [] := by
              intro hnil
              rw [hnil] at hres
              exact absurd hres (by simp)
            show (resp :: out'.resps).getLast? = some a
            rw [show resp :: out'.resps = [resp] ++ out'.resps from rfl,
              getLast?_append_right _ _ hrne]
            exact hres

/-- When the model keeps producing SQL and never raises, a run of `n` rounds
makes exactly `n` model calls and ends with the fixed exhaustion error. -/
lemma runRounds_all_sql (llm : Oracle) (conn : Conn) (render : Render)
    (hllm : ∀ ms, ∃ resp, llm ms = Except.ok resp ∧ extract_sql resp ≠ []) :
    ∀ (n : Nat) (msgs lms : List Message) (out : RoundsOut),
      runRounds llm conn render n msgs lms = some out →
      out.calls = n ∧ out.steps.getLast? = some (Step.error exhaustedText) := by
  intro n
  induction n with
  | zero =>
      intro msgs lms out h
      rw [runRounds] at h
      simp only [Option.some.injEq] at h
      subst h
      exact ⟨rfl, rfl⟩
  | succ n ih =>
      intro msgs lms out h
      rw [runRounds] at h
      split at h
      · rename_i e heq
        obtain ⟨resp, hok, -⟩ := hllm lms
        rw [hok] at heq
        exact absurd heq (by simp)
      · rename_i resp heq
        split at h
        · rename_i hsq
          obtain ⟨resp', hok, hne⟩ := hllm lms
          rw [heq] at hok
          injection hok with hok'
          rw [hok'] at hsq
          exact absurd hsq hne
        · split at h
          · exact absurd h (by simp)
          · rename_i csteps texts hp
            simp only [Option.map_eq_some'] at h
            obtain ⟨out', hrec, rfl⟩ := h
            obtain ⟨hcalls, hlast⟩ := ih _ _ out' hrec
            have hne : out'.steps ≠ [] := by
              intro hnil
              rw [hnil] at hlast
              exact absurd hlast (by simp)
            constructor
            · show out'.calls + 1 = n + 1
              omega
            · show (Step.llmResponse resp :: (csteps ++ out'.steps)).getLast? =
                some (Step.error exhaustedText)
              rw [← List.cons_append, getLast?_append_right _ _ hne]
              exact hlast

/-- Unfolding of `chat` on its main (non-empty, on-topic) branch. -/
lemma chat_main_branch {msg : List Char} {store : List Message} {llm : Oracle}
    {conn : Conn} {render : Render} {r : TurnResult}
    (hne : ¬(strip msg = [])) (hoff : is_off_topic (strip msg) = false)
    (h : chat msg store llm conn render = some r) :
    ∃ out, runRounds llm conn render max_rounds
        (store ++ [⟨Role.user, strip msg⟩]) (store ++ [⟨Role.user, strip msg⟩]) =
        some out ∧
      r = ⟨ChatResponse.steps out.steps, out.msgs, out.calls, out.llmMsgs,
        out.resps, out.fbs⟩ := by
  rw [chat, if_neg hne, if_neg (by simp [hoff])] at h
  simp only [Option.map_eq_some'] at h
  obtain ⟨out, hout, hr⟩ := h
  exact ⟨out, hout, hr.symm⟩

/-! ### Claim C2 -/

/-- C2 (amended): every turn processed by the loop that completes — i.e. on
which the safety classifier terminates for every extracted candidate — emits
a non-empty Step sequence whose last element is of type `answer` or `error`,
and no other element of the sequence is of either type (exactly one terminal
Step, across all paths: off-topic refusal, no-SQL answer, model-call failure,
round-budget exhaustion). -/
theorem chat_terminal_step :
    ∀ msg store llm conn render r, ¬(strip msg = []) →
      chat msg store llm conn render = some r →
      ∃ l st, r.response = ChatResponse.steps l ∧ l.getLast? = some st ∧
        isTerminalStep st = true ∧
        l.countP (fun s => isTerminalStep s) = 1 := by
  intro msg store llm conn render r hne h
  by_cases hoff : is_off_topic (strip msg) = true
  · rw [chat, if_neg hne, if_pos hoff] at h
    simp only [Option.some.injEq] at h
    subst h
    exact ⟨[Step.answer refusalText], Step.answer refusalText, rfl, rfl, rfl, rfl⟩
  · obtain ⟨out, hout, rfl⟩ := chat_main_branch hne (by simpa using hoff) h
    obtain ⟨st, hlast, hterm, hcount⟩ :=
      runRounds_terminal llm conn render max_rounds _ _ out hout
    exact ⟨out.steps, st, rfl, hlast, hterm, hcount⟩

/-- C2 (counterexample): a turn on which the claim's guarantee fails because
the request never completes: the model's response carries the fenced block
`--a`, whose safety classification diverges (see C9), so no Step sequence is
ever emitted. -/
theorem chat_terminal_step_counterexample :
    chat (("hello").data) [] (fun _ => Except.ok (("```sql\n--a\n```").data))
      (fun _ => Except.ok ([], [])) (fun _ => []) = none := by
  decide

/-- Witness for C2 (amended) on a completing turn. -/
theorem chat_terminal_step_witness :
    ∃ l st, ChatResponse.steps [Step.answer (("Answer.").data)] =
        ChatResponse.steps l ∧ l.getLast? = some st ∧ isTerminalStep st = true ∧
        l.countP (fun s => isTerminalStep s) = 1 := by
  have h := chat_terminal_step (("Hello").data) [] (fun _ => Except.ok (("Answer.").data))
    (fun _ => Except.ok ([], [])) (fun _ => [])
    ⟨ChatResponse.steps [Step.answer (("Answer.").data)],
      [⟨Role.user, ("Hello").data⟩, ⟨Role.assistant, ("Answer.").data⟩],
      1, [⟨Role.user, ("Hello").data⟩], [("Answer.").data], []⟩
    (by decide) (by decide)
  exact h

/-! ### Claim C4 -/

/-- C4 (amended): for every turn in which every model invocation succeeds and
its response contains at least one extracted SQL candidate, and on which the
turn completes (every candidate's safety classification terminates), exactly
5 model invocations occur (`max_rounds = 5`) and the turn's final Step is one
`error` Step carrying the fixed exhaustion message ("had trouble completing
that query / try rephrasing"), distinct from a model-call failure message. -/
theorem chat_exhaustion :
    ∀ msg store llm conn render r, ¬(strip msg = []) →
      is_off_topic (strip msg) = false →
      (∀ ms, ∃ resp, llm ms = Except.ok resp ∧ extract_sql resp ≠ []) →
      chat msg store llm conn render = some r →
      r.calls = 5 ∧ ∃ l, r.response = ChatResponse.steps l ∧
        l.getLast? = some (Step.error exhaustedText) := by
  intro msg store llm conn render r hne hoff hllm h
  obtain ⟨out, hout, rfl⟩ := chat_main_branch hne hoff h
  obtain ⟨hcalls, hlast⟩ :=
    runRounds_all_sql llm conn render hllm max_rounds _ _ out hout
  exact ⟨hcalls, out.steps, rfl, hlast⟩

/-- C4 (counterexample): the model returns an SQL candidate in its first
round (so the claim's hypothesis is met), but that candidate's safety
classification diverges and the turn never completes — no result, and in
particular not 5 invocations. -/
theorem chat_exhaustion_counterexample :
    extract_sql (("```sql\n--b\n```").data) = [("--b").data] ∧
    chat (("run it").data) [] (fun _ => Except.ok (("```sql\n--b\n```").data))
      (fun _ => Except.ok ([], [])) (fun _ => []) = none := by
  exact ⟨by decide, by decide⟩

/-- Witness for C4 (amended): a concrete 5-round exhausted turn. -/
theorem chat_exhaustion_witness :
    (chat (("Keep querying").data) []
      (fun _ => Except.ok (("```sql\nSELECT 1\n```").data))
      (fun _ => Except.ok ([], [])) (fun _ => [])).map TurnResult.calls =
      some 5 := by
  have hs : (chat (("Keep querying").data) []
      (fun _ => Except.ok (("```sql\nSELECT 1\n```").data))
      (fun _ => Except.ok ([], [])) (fun _ => [])).isSome = true := by decide
  obtain ⟨r, hr⟩ := Option.isSome_iff_exists.mp hs
  have h := chat_exhaustion (("Keep querying").data) []
    (fun _ => Except.ok (("```sql\nSELECT 1\n```").data))
    (fun _ => Except.ok ([], [])) (fun _ => []) r
    (by decide) (by decide)
    (fun ms => ⟨(("```sql\nSELECT 1\n```").data), rfl, by decide⟩) hr
  rw [hr]
  simp only [Option.map_some', h.1]

/-- An unsafe candidate contributes its blocked `query_error` Step and
result-text in place, and the remaining candidates are still processed. -/
lemma processCandidates_insert (conn : Conn) (render : Render) :
    ∀ (pre : List (List Char)) (post : List (List Char)) (u : List Char)
      (s1 s2 : List Step) (t1 t2 : List (List Char)),
      is_safe_sql u = some false →
      processCandidates conn render pre = some (s1, t1) →
      processCandidates conn render post = some (s2, t2) →
      processCandidates conn render (pre ++ u :: post) =
        some (s1 ++ Step.queryError blockedText :: s2,
          t1 ++ blockedText :: t2) := by
  intro pre
  induction pre with
  | nil =>
      intro post u s1 s2 t1 t2 hu hpre hpost
      rw [processCandidates] at hpre
      simp only [Option.some.injEq, Prod.mk.injEq] at hpre
      obtain ⟨h1, h2⟩ := hpre
      subst h1
      subst h2
      rw [List.nil_append, processCandidates, hu, hpost]
      rfl
  | cons c pre' ih =>
      intro post u s1 s2 t1 t2 hu hpre hpost
      rw [processCandidates] at hpre
      rw [List.cons_append, processCandidates]
      cases hs : is_safe_sql c with
      | none => rw [hs] at hpre; exact absurd hpre (by simp)
      | some b =>
          rw [hs] at hpre
          cases b with
          | false =>
              simp only [Option.map_eq_some'] at hpre
              obtain ⟨⟨s1', t1'⟩, hp', heq⟩ := hpre
              simp only [Prod.mk.injEq] at heq
              obtain ⟨h1, h2⟩ := heq
              subst h1
              subst h2
              rw [ih post u s1' s2 t1' t2 hu hp' hpost]
              simp
          | true =>
              cases hr : run_queryDefault c conn with
              | error e =>
                  rw [hr] at hpre
                  simp only [Option.map_eq_some'] at hpre
                  obtain ⟨⟨s1', t1'⟩, hp', heq⟩ := hpre
                  simp only [Prod.mk.injEq] at heq
                  obtain ⟨h1, h2⟩ := heq
                  subst h1
                  subst h2
                  rw [ih post u s1' s2 t1' t2 hu hp' hpost]
                  simp
              | rows rws =>
                  rw [hr] at hpre
                  simp only [Option.map_eq_some'] at hpre
                  obtain ⟨⟨s1', t1'⟩, hp', heq⟩ := hpre
                  simp only [Prod.mk.injEq] at heq
                  obtain ⟨h1, h2⟩ := heq
                  subst h1
                  subst h2
                  rw [ih post u s1' s2 t1' t2 hu hp' hpost]
                  simp

/-! ### Claim C7 -/

/-- C7 (amended): within a round, an unsafe candidate yields a `query_error`
Step with the fixed blocked-for-safety message in its extraction-order
position, with the same text recorded as its result-text; the round is not
aborted — the candidates before and after it are still processed (their Steps
and result-texts surround the blocked entry), and the round appends the
feedback message built from all the concatenated result-texts to the
model-facing list and continues with the next round — provided the safety
classification of the other candidates terminates (a diverging classification
hangs the round; see the counterexample). -/
theorem unsafe_candidate_round :
    (∀ conn render pre post u s1 s2 t1 t2,
      is_safe_sql u = some false →
      processCandidates conn render pre = some (s1, t1) →
      processCandidates conn render post = some (s2, t2) →
      processCandidates conn render (pre ++ u :: post) =
        some (s1 ++ Step.queryError blockedText :: s2,
          t1 ++ blockedText :: t2)) ∧
    (∀ llm conn render n msgs lms resp pre post u s1 s2 t1 t2,
      llm lms = Except.ok resp →
      extract_sql resp = pre ++ u :: post →
      is_safe_sql u = some false →
      processCandidates conn render pre = some (s1, t1) →
      processCandidates conn render post = some (s2, t2) →
      runRounds llm conn render (n + 1) msgs lms =
        (runRounds llm conn render n (msgs ++ [⟨Role.assistant, resp⟩])
            (lms ++ [⟨Role.assistant, resp⟩,
              ⟨Role.user, resultMessage (t1 ++ blockedText :: t2)⟩])).map
          (fun out => ⟨Step.llmResponse resp ::
              ((s1 ++ Step.queryError blockedText :: s2) ++ out.steps),
            out.msgs, out.llmMsgs, out.calls + 1, resp :: out.resps,
            (resp, resultMessage (t1 ++ blockedText :: t2)) :: out.fbs⟩)) := by
  refine ⟨processCandidates_insert, ?_⟩
  intro llm conn render n msgs lms resp pre post u s1 s2 t1 t2 hl hex hu hpre hpost
  have hproc := processCandidates_insert conn render pre post u s1 s2 t1 t2 hu hpre hpost
  rw [runRounds]
  simp only [hl]
  rw [hex, if_neg (by simp), hproc]

/-- C7 (counterexample): a round whose first candidate is unsafe (blocked,
with the classifier terminating) but whose second candidate diverges in the
classifier: the round hangs, so the remaining-candidate processing and the
feedback to the model never happen. -/
theorem unsafe_candidate_round_counterexample :
    is_safe_sql (("DROP TABLE t").data) = some false ∧
    extract_sql (("```sql\nDROP TABLE t\n```\n```sql\n--c\n```").data) =
      [("DROP TABLE t").data, ("--c").data] ∧
    chat (("please").data) []
      (fun _ => Except.ok (("```sql\nDROP TABLE t\n```\n```sql\n--c\n```").data))
      (fun _ => Except.ok ([], [])) (fun _ => []) = none := by
  exact ⟨by decide, by decide, by decide⟩

/-- Witness for C7 (amended) on a concrete round: one unsafe candidate
between two safe ones. -/
theorem unsafe_candidate_round_witness :
    processCandidates (fun _ => Except.ok ([], [])) (fun _ => [])
      ([("SELECT 1").data] ++ ("DROP TABLE t").data :: [("SELECT 2").data]) =
      some ([Step.queryResult []] ++
          Step.queryError blockedText :: [Step.queryResult []],
        [[]] ++ blockedText :: [[]]) :=
  unsafe_candidate_round.1 (fun _ => Except.ok ([], [])) (fun _ => [])
    [("SELECT 1").data] [("SELECT 2").data] (("DROP TABLE t").data)
    [Step.queryResult []] [Step.queryResult []] [[]] [[]]
    (by decide) (by decide) (by decide)

/-! ### Claim C8 -/

/-- C8 (amended): for a turn that reaches the model and produces an `answer`,
the visible sequence afterwards is the prior sequence extended by
`{user, input}` followed by exactly one `{assistant, response}` entry per
model response, the last response being the answer's content — so when the
answer arrives in the first round the last two entries are `{user, input}`,
`{assistant, final}`, while turns with intermediate rounds interleave the
earlier assistant responses.  The synthetic feedback entries are appended
only to the model-facing sequence (which is the visible sequence at the start
of the turn extended by the per-round `(assistant response, feedback)`
pairs).  Off-topic turns leave the visible sequence unchanged. -/
theorem chat_visible_sequence :
    ∀ msg store llm conn render r a,
      chat msg store llm conn render = some r →
      ((is_off_topic (strip msg) = true → r.store = store) ∧
       (¬(strip msg = []) → is_off_topic (strip msg) = false →
        (∃ l, r.response = ChatResponse.steps l ∧
          l.getLast? = some (Step.answer a)) →
        r.store = store ++ ⟨Role.user, strip msg⟩ ::
          r.resps.map (fun t => ⟨Role.assistant, t⟩) ∧
        r.resps.getLast? = some a ∧
        r.llmMsgs = (store ++ [⟨Role.user, strip msg⟩]) ++
          r.fbs.flatMap (fun p => [⟨Role.assistant, p.1⟩, ⟨Role.user, p.2⟩]) ∧
        (r.resps.length = 1 →
          r.store = store ++ [⟨Role.user, strip msg⟩, ⟨Role.assistant, a⟩]))) := by
  intro msg store llm conn render r a h
  constructor
  · intro hoff
    have hne : ¬(strip msg = []) := by
      intro hnil
      rw [hnil] at hoff
      simp [is_off_topic, wordSearch, searchFrom] at hoff
    rw [chat, if_neg hne, if_pos hoff] at h
    simp only [Option.some.injEq] at h
    subst h
    rfl
  · intro hne hoff hans
    obtain ⟨out, hout, rfl⟩ := chat_main_branch hne hoff h
    obtain ⟨hm, hlm⟩ := runRounds_msgs llm conn render max_rounds _ _ out hout
    obtain ⟨l, hl, hlast⟩ := hans
    have hls : out.steps = l := by
      injection hl
    rw [← hls] at hlast
    have hresp := runRounds_answer llm conn render max_rounds _ _ out a hout hlast
    refine ⟨?_, hresp, ?_, ?_⟩
    · show out.msgs = store ++ ⟨Role.user, strip msg⟩ ::
        out.resps.map (fun t => ⟨Role.assistant, t⟩)
      rw [hm]
      simp
    · exact hlm
    · intro hlen1
      show out.msgs = store ++ [⟨Role.user, strip msg⟩, ⟨Role.assistant, a⟩]
      cases hres : out.resps with
      | nil =>
          rw [hres] at hlen1
          simp at hlen1
      | cons x xs =>
          cases xs with
          | nil =>
              rw [hres] at hresp
              have hx : x = a := Option.some.inj hresp
              subst hx
              rw [hm, hres]
              simp
          | cons y ys =>
              rw [hres] at hlen1
              simp at hlen1

/-- C8 (counterexample): a two-round turn (SQL then answer).  The turn
produces an `answer` Step, but the last two visible entries are the two
assistant messages — the round-1 SQL response and the final answer — not
`{user, input}` followed by `{assistant, final}`. -/
theorem chat_visible_sequence_counterexample :
    (chat (("q").data) []
      (fun ms => if ms.length ≤ 1 then Except.ok (("```sql\nSELECT 1\n```").data)
        else Except.ok (("All done.").data))
      (fun _ => Except.ok ([], [])) (fun _ => [])).map TurnResult.store =
      some [⟨Role.user, ("q").data⟩,
        ⟨Role.assistant, ("```sql\nSELECT 1\n```").data⟩,
        ⟨Role.assistant, ("All done.").data⟩] ∧
    (chat (("q").data) []
      (fun ms => if ms.length ≤ 1 then Except.ok (("```sql\nSELECT 1\n```").data)
        else Except.ok (("All done.").data))
      (fun _ => Except.ok ([], [])) (fun _ => [])).map TurnResult.response =
      some (ChatResponse.steps
        [Step.llmResponse (("```sql\nSELECT 1\n```").data),
         Step.queryResult [],
         Step.answer (("All done.").data)]) ∧
    (⟨Role.assistant, ("```sql\nSELECT 1\n```").data⟩ : Message) ≠
      ⟨Role.user, ("q").data⟩ := by
  exact ⟨by decide, by decide, by decide⟩

/-- Witness for C8 (amended): a single-round answer turn, whose visible
sequence afterwards is exactly `{user, input}` then `{assistant, answer}`. -/
theorem chat_visible_sequence_witness :
    (chat (("Hello").data) [] (fun _ => Except.ok (("Answer.").data))
      (fun _ => Except.ok ([], [])) (fun _ => [])).map TurnResult.store =
      some [⟨Role.user, ("Hello").data⟩, ⟨Role.assistant, ("Answer.").data⟩] := by
  have hs : (chat (("Hello").data) [] (fun _ => Except.ok (("Answer.").data))
      (fun _ => Except.ok ([], [])) (fun _ => [])).isSome = true := by decide
  obtain ⟨r, hr⟩ := Option.isSome_iff_exists.mp hs
  have hrespeq : (chat (("Hello").data) [] (fun _ => Except.ok (("Answer.").data))
      (fun _ => Except.ok ([], [])) (fun _ => [])).map TurnResult.response =
      some (ChatResponse.steps [Step.answer (("Answer.").data)]) := by decide
  have hrespsl : (chat (("Hello").data) [] (fun _ => Except.ok (("Answer.").data))
      (fun _ => Except.ok ([], [])) (fun _ => [])).map
        (fun t => t.resps.length) = some 1 := by decide
  rw [hr] at hrespeq hrespsl ⊢
  simp only [Option.map_some', Option.some.injEq] at hrespeq hrespsl
  have h := (chat_visible_sequence (("Hello").data) [] _ _ _ r (("Answer.").data)
    hr).2 (by decide) (by decide)
    ⟨[Step.answer (("Answer.").data)], hrespeq, rfl⟩
  have hst := h.2.2.2 hrespsl
  simp only [Option.map_some']
  rw [hst]
  decide

/-! ### Fidelity checks

Concrete evaluations mirroring the behaviours of the Python functions
(including the cases exercised by the repository's own test suite) and the
scenarios of the spec's section 8. -/
example : is_safe_sql (("SELECT * FROM t").data) = some true := by decide
example : is_safe_sql (("-- c\nSELECT 1").data) = some true := by decide
example : is_safe_sql (("/* c */ SELECT 1").data) = some true := by decide
example : is_safe_sql (("SELECT 1; DROP TABLE t").data) = some false := by decide
example : is_safe_sql (("SELECT \x27update\x27 FROM t").data) = some false := by decide
example : is_safe_sql (("SHOW TABLES").data) = some false := by decide
example : is_safe_sql (("WITH cte AS (SELECT 1) SELECT 2").data) = some true := by decide
example : is_safe_sql (("SELECT 1;;;").data) = some true := by decide
example : is_safe_sql (("").data) = some false := by decide
example : is_safe_sql (("   ").data) = some false := by decide
example : is_safe_sql (("--x").data) = none := by decide
example : is_safe_sql (("/* unclosed").data) = some false := by decide
example : is_safe_sql (("select col from t").data) = some true := by decide
example : is_off_topic (("how to build a bomb").data) = true := by decide
example : is_off_topic (("population of California").data) = false := by decide
example : is_off_topic (("DRUGS").data) = true := by decide
example : is_off_topic (("drugged").data) = false := by decide
example : is_off_topic (("").data) = false := by decide
example : extract_sql (("Here:\n```sql\nSELECT 1\n```\nDone.").data) = [("SELECT 1").data] := by decide
example : extract_sql (("A:\n```sql\nSELECT a\n```\nB:\n```sql\nSELECT b\n```").data) = [("SELECT a").data, ("SELECT b").data] := by decide
example : extract_sql (("No SQL here.").data) = [] := by decide
example : extract_sql (("```python\nx\n```").data) = [] := by decide
example : extract_sql (("```sql\n```").data) = [("").data] := by decide
example : extract_sql (("```sqlite\nSELECT 1\n```").data) = [("ite\nSELECT 1").data] := by decide
example : extract_sql (("```sql\nSELECT 1").data) = [] := by decide
example : extract_sql (("```sql \n\t SELECT ` x \n ```more```sql y```").data) = [("SELECT ` x").data, ("y").data] := by decide
example : extract_sql (("a```sql s1``` b ```sql\n s2 \n```").data) = [("s1").data, ("s2").data] := by decide
example : hasDangerous (("a update b").data) = true := by decide
example : hasDangerous (("xupdate update2 up-date3").data) = false := by decide

example :
    chat (("tell me about porn").data) [] (fun _ => Except.error [])
      (fun _ => Except.ok ([], [])) (fun _ => []) =
    some ⟨ChatResponse.steps [Step.answer refusalText], [], 0, [], [], []⟩ := by decide

example :
    chat (("  ").data) [⟨Role.user, ("old").data⟩] (fun _ => Except.error [])
      (fun _ => Except.ok ([], [])) (fun _ => []) =
    some ⟨ChatResponse.badRequest emptyText, [⟨Role.user, ("old").data⟩], 0, [], [], []⟩ := by decide

example :
    chat (("Hello").data) [] (fun _ => Except.ok (("Answer.").data))
      (fun _ => Except.ok ([], [])) (fun _ => []) =
    some ⟨ChatResponse.steps [Step.answer (("Answer.").data)],
      [⟨Role.user, ("Hello").data⟩, ⟨Role.assistant, ("Answer.").data⟩],
      1, [⟨Role.user, ("Hello").data⟩], [("Answer.").data], []⟩ := by decide

example :
    chat (("hi").data) [] (fun _ => Except.error (("API timeout").data))
      (fun _ => Except.ok ([], [])) (fun _ => []) =
    some ⟨ChatResponse.steps [Step.error (("API timeout").data)],
      [⟨Role.user, ("hi").data⟩], 1, [⟨Role.user, ("hi").data⟩], [], []⟩ := by decide

example :
    (chat (("Keep querying").data) [] (fun _ => Except.ok (("```sql\nSELECT 1\n```").data))
      (fun _ => Except.ok ([("X").data], [[("1").data]])) (fun _ => ("[rows]").data)).map
        (fun r => (r.calls, r.response)) =
    some (5, ChatResponse.steps
      [Step.llmResponse (("```sql\nSELECT 1\n```").data),
       Step.queryResult [[(("X").data, ("1").data)]],
       Step.llmResponse (("```sql\nSELECT 1\n```").data),
       Step.queryResult [[(("X").data, ("1").data)]],
       Step.llmResponse (("```sql\nSELECT 1\n```").data),
       Step.queryResult [[(("X").data, ("1").data)]],
       Step.llmResponse (("```sql\nSELECT 1\n```").data),
       Step.queryResult [[(("X").data, ("1").data)]],
       Step.llmResponse (("```sql\nSELECT 1\n```").data),
       Step.queryResult [[(("X").data, ("1").data)]],
       Step.error exhaustedText]) := by decide

example :
    chat (("q").data) [] (fun _ => Except.ok (("```sql\n--a\n```").data))
      (fun _ => Except.ok ([], [])) (fun _ => []) = none := by decide

end CensusChat

